import Mathlib

/-!
# Verification of the production-scheduling optimizer

Shallow embedding, in Lean 4, of the core of the `compute` repository:
the domain model (`src/models/entities.py`), the EDD delivery allocator
(`src/decoders/edd_decoder.py`), the fitness evaluator
(`src/evaluation/fitness.py`) and the metaheuristic operators
(`src/algorithms/ga.py`, `vns.py`, `sa.py`).

Modelling conventions:
* Python `float` values are modelled by `ℚ` (all inputs in the spec and the
  concrete scenarios are decimal; arithmetic on them is exact).
* Python `int` is modelled by `Int` (arbitrary precision in both).
* Python dicts keyed by order id are modelled as total functions
  `String → Int` built by functional update; every read performed by the
  source happens at a key that was previously initialised, so the default
  value of the base function is never observed.
* Code that can raise (`KeyError` from `Config.product_by_id`, `IndexError`
  from list indexing, `ValueError` from `random.randint` on an empty range)
  is modelled in `Option`: `none` is an escaped exception.
* `random` draws are modelled by an oracle (`Rng`) giving the value of every
  draw, consumed sequentially through a draw counter, mirroring the single
  shared global stream of the `random` module.
* Mutable Python lists (the nested schedule lists mutated in place by the
  GA) are modelled with an explicit heap of rows further below; the pure
  value model here is used for the code paths that only build fresh values.
-/

namespace Compute

/-- `SLOTS_PER_DAY` from `entities.py`. -/
def SLOTS_PER_DAY : Nat := 6

/-- `day_of_slot` from `entities.py` (slot indices are the nonnegative
`enumerate` indices). -/
def day_of_slot (s : Nat) : Nat := s / SLOTS_PER_DAY

/-- `slot_in_day` from `entities.py`. -/
def slot_in_day (s : Nat) : Nat := s % SLOTS_PER_DAY

/-- Python `int(q)`: truncation toward zero. -/
def ratTrunc (q : ℚ) : Int := if 0 ≤ q then q.floor else q.ceil

/-- `Product` dataclass from `entities.py`. -/
structure Product where
  id : Int
  rate_per_hour : ℚ
  unit_cost : ℚ
  deriving DecidableEq, Repr

/-- `Product.slot_capacity`: `int(4 * self.rate_per_hour)`. -/
def Product.slot_capacity (p : Product) : Int := ratTrunc (4 * p.rate_per_hour)

/-- `Config` dataclass from `entities.py`. -/
structure Config where
  lines : Nat
  products : List Product
  wage_per_slot_per_line : ℚ
  wage_multiplier_per_slot : List ℚ
  allow_idle : Bool
  deriving Repr

/-- `Config.product_by_id`: linear scan, first product with the id;
`none` models the raised `KeyError`. -/
def Config.product_by_id (c : Config) (pid : Int) : Option Product :=
  c.products.find? (fun p => decide (p.id = pid))

/-- `Order` dataclass from `entities.py` (including the mutable runtime
field `delivered`). -/
structure Order where
  id : String
  product : Int
  qty : Int
  unit_price : ℚ
  arrival_day : Int
  arrival_slot_index : Int
  due_day : Int
  delivered : Int := 0
  deriving DecidableEq, Repr

/-- `Order.available_from_day`. -/
def Order.available_from_day (o : Order) : Int :=
  o.arrival_day + (if 0 < o.arrival_slot_index then 1 else 0)

/-- `Schedule`: per slot, a list of length `lines` of product id or
`None` (idle). -/
abbrev Schedule := List (List (Option Int))

/-- Python dict keyed by order id, as a total function.  The base value is
only a formal default: the source reads such dicts only at initialised
keys. -/
abbrev Map := String → Int

def Map.update (m : Map) (k : String) (v : Int) : Map :=
  fun x => if x = k then v else m x

/-! ## The EDD delivery allocator (`edd_decoder.py`) -/

/-- The sort key comparison of
`subset.sort(key=lambda o: (o.due_day, -(o.unit_price - cost)))`:
Python sorts tuples lexicographically, and `list.sort` is stable, so an
element `x` arriving earlier in the input precedes `y` in the output
exactly when `key x ≤ key y`. -/
def orderKeyLE (cost : ℚ) (a b : Order) : Bool :=
  decide (a.due_day < b.due_day ∨
    (a.due_day = b.due_day ∧ -(a.unit_price - cost) ≤ -(b.unit_price - cost)))

/-- Stable insertion: place `x` before the first element `y` with
`le x y` (so among key-equal elements the earlier input element stays
first, as with Python stable sort). -/
def insSorted (le : Order → Order → Bool) (x : Order) : List Order → List Order
  | [] => [x]
  | y :: l => if le x y then x :: y :: l else y :: insSorted le x l

/-- Stable sort used to model `list.sort(key=...)`. -/
def sortOrders (le : Order → Order → Bool) : List Order → List Order
  | [] => []
  | x :: l => insSorted le x (sortOrders le l)

/-- `remaining = {o.id: o.qty for o in ords}` (later duplicates
overwrite, as in a Python dict comprehension). -/
def initRemaining (orders : List Order) : Map :=
  orders.foldl (fun m o => Map.update m o.id o.qty) (fun _ => 0)

/-- `prod_orders[p]`: the orders of product `p` sorted by
(due day asc, profit density desc).  In the source the dict is built for
the product ids of the config and read only by key (`prod_orders[p]`),
so it is modelled as a function; a missing product id is the `KeyError`
of `config.product_by_id(p)` used inside the sort key.  The `ords` list
consists of `dataclasses.replace` copies of the input orders, which are
value-identical to them. -/
def prodOrdersFor (cfg : Config) (orders : List Order) (p : Int) : Option (List Order) :=
  (cfg.product_by_id p).map fun pr =>
    sortOrders (orderKeyLE pr.unit_cost) (orders.filter (fun o => decide (o.product = p)))

/-- One update of the `produced_by_product` dict:
`produced_by_product[l_choice] = produced_by_product.get(l_choice, 0) + cap`.
A Python dict keeps the position of an existing key on value update and
appends new keys, and iterates in that (insertion) order. -/
def addProduced : List (Int × Int) → Int → Int → List (Int × Int)
  | [], pid, cap => [(pid, cap)]
  | (q, c) :: rest, pid, cap =>
    if q = pid then (q, c + cap) :: rest
    else (q, c) :: addProduced rest pid cap

/-- Aggregation of produced capacity per product over the lines of one
slot (first loop of the slot body in `decode_assignments`), with the dict
built so far as accumulator; the loop starts from the empty dict. -/
def producedByProduct (cfg : Config) : List (Option Int) → List (Int × Int) →
    Option (List (Int × Int))
  | [], acc => some acc
  | choice :: rest, acc =>
    match choice with
    | none => producedByProduct cfg rest acc
    | some pid =>
      (cfg.product_by_id pid).bind fun pr =>
        producedByProduct cfg rest (addProduced acc pid pr.slot_capacity)

/-- Value of product `p` in the association list modelling the
`produced_by_product` dict (0 for an absent key, as with `.get(p, 0)`). -/
def pbpLookup : List (Int × Int) → Int → Int
  | [], _ => 0
  | (q, c) :: rest, p => if q = p then c else pbpLookup rest p

/-- The greedy consumption loop `for o in prod_orders[p]` of
`decode_assignments`: skip unavailable orders and satisfied orders, take
`min(need, produced)`, break when capacity is exhausted.  Returns the
updated `remaining` map and the leftover capacity. -/
def allocOrders (day : Int) : List Order → Int → Map → Map × Int
  | [], produced, rem => (rem, produced)
  | o :: rest, produced, rem =>
    if day < o.available_from_day then allocOrders day rest produced rem
    else
      let need := rem o.id
      if need ≤ 0 then allocOrders day rest produced rem
      else
        let take := min need produced
        let rem1 := if 0 < take then Map.update rem o.id (need - take) else rem
        let produced1 := if 0 < take then produced - take else produced
        if produced1 ≤ 0 then (rem1, produced1)
        else allocOrders day rest produced1 rem1

/-- The loop `for p, produced in produced_by_product.items()` of
`decode_assignments` (with its `if produced <= 0: continue` guard). -/
def allocSlot (day : Int) (prodOrds : Int → Option (List Order)) :
    List (Int × Int) → Map → Option Map
  | [], rem => some rem
  | (p, produced) :: rest, rem =>
    if produced ≤ 0 then allocSlot day prodOrds rest rem
    else
      (prodOrds p).bind fun os =>
        allocSlot day prodOrds rest (allocOrders day os produced rem).1

/-- The outer `for s, lines in enumerate(schedule)` loop of
`decode_assignments`. -/
def decodeSlots (cfg : Config) (prodOrds : Int → Option (List Order)) :
    List (List (Option Int)) → Nat → Map → Option Map
  | [], _, rem => some rem
  | lines :: rest, sIdx, rem =>
    (producedByProduct cfg lines []).bind fun pbp =>
      (allocSlot ((day_of_slot sIdx : Nat) : Int) prodOrds pbp rem).bind fun rem2 =>
        decodeSlots cfg prodOrds rest (sIdx + 1) rem2

/-- `decode_assignments` from `edd_decoder.py`: delivered units per order
across all time.  `none` models a propagated `KeyError`. -/
def decode_assignments (schedule : Schedule) (cfg : Config) (orders : List Order) :
    Option Map :=
  (decodeSlots cfg (prodOrdersFor cfg orders) schedule 0 (initRemaining orders)).map
    fun remF => orders.foldl (fun m o => Map.update m o.id (o.qty - remF o.id)) (fun _ => 0)

/-! ## The fitness evaluator (`fitness.py`) -/

/-- `EvaluationResult` dataclass from `entities.py`. -/
structure EvaluationResult where
  total_revenue : ℚ
  production_cost : ℚ
  wage_cost : ℚ
  penalty : ℚ
  profit : ℚ
  utilization_rate : ℚ
  on_time_rate : ℚ
  penalty_rate : ℚ
  delivered_per_order : Map

/-- The inner consumption loop of the before-due second pass of
`evaluate_schedule` (and, identically, of `_delivered_before_due`):
like `allocOrders` but additionally credits `delivered_before_due` when
the slot's day is still before the order's due day.  Note the source has
no `produced <= 0` guard around this loop in the second pass; with
non-positive capacity the loop breaks at the first eligible order
without changing anything, which the recursion reproduces. -/
def allocDue (day : Int) : List Order → Int → Map → Map → Map × Map × Int
  | [], produced, dbd, rem => (dbd, rem, produced)
  | o :: rest, produced, dbd, rem =>
    if day < o.available_from_day then allocDue day rest produced dbd rem
    else
      let need := rem o.id
      if need ≤ 0 then allocDue day rest produced dbd rem
      else
        let take := min need produced
        let dbd1 := if 0 < take then
            (if day < o.due_day then Map.update dbd o.id (dbd o.id + take) else dbd)
          else dbd
        let rem1 := if 0 < take then Map.update rem o.id (need - take) else rem
        let produced1 := if 0 < take then produced - take else produced
        if produced1 ≤ 0 then (dbd1, rem1, produced1)
        else allocDue day rest produced1 dbd1 rem1

/-- The per-product loop of the second pass of `evaluate_schedule`:
rebuilds and sorts the subset of orders of the product in every slot. -/
def duePassSlot (cfg : Config) (orders : List Order) (day : Int) :
    List (Int × Int) → Map → Map → Option (Map × Map)
  | [], dbd, rem => some (dbd, rem)
  | (p, produced) :: rest, dbd, rem =>
    (cfg.product_by_id p).bind fun pr =>
      let subset := sortOrders (orderKeyLE pr.unit_cost)
        (orders.filter (fun o => decide (o.product = p)))
      let r := allocDue day subset produced dbd rem
      duePassSlot cfg orders day rest r.1 r.2.1

/-- The slot loop of the second (before-due) pass of `evaluate_schedule`. -/
def duePassSlots (cfg : Config) (orders : List Order) :
    List (List (Option Int)) → Nat → Map → Map → Option (Map × Map)
  | [], _, dbd, rem => some (dbd, rem)
  | lines :: rest, sIdx, dbd, rem =>
    (producedByProduct cfg lines []).bind fun pbp =>
      (duePassSlot cfg orders ((day_of_slot sIdx : Nat) : Int) pbp dbd rem).bind fun dr =>
        duePassSlots cfg orders rest (sIdx + 1) dr.1 dr.2

/-- Production-cost / active-line-count loop of `evaluate_schedule`
(accumulates `prod_cost`, `active_lines_count`, `total_lines_slots`). -/
def prodCostActive (cfg : Config) :
    List (List (Option Int)) → ℚ → Nat → Nat → Option (ℚ × Nat × Nat)
  | [], pc, act, tot => some (pc, act, tot)
  | lines :: rest, pc, act, tot =>
    (lines.foldl
        (fun acc c =>
          acc.bind fun s =>
            match c with
            | none => some s
            | some pid => (cfg.product_by_id pid).map fun pr =>
                (s.1 + (pr.slot_capacity : ℚ) * pr.unit_cost, s.2 + 1))
        (some (pc, act))).bind
      fun s => prodCostActive cfg rest s.1 s.2 (tot + lines.length)

/-- Wage-cost loop of `evaluate_schedule`; the slot-in-day indexing of
`wage_multiplier_per_slot` can raise `IndexError` (modelled by `none`) if
the multiplier list is shorter than the slot-in-day index requires. -/
def wageCost (cfg : Config) : List (List (Option Int)) → Nat → ℚ → Option ℚ
  | [], _, acc => some acc
  | lines :: rest, sIdx, acc =>
    (cfg.wage_multiplier_per_slot.get? (slot_in_day sIdx)).bind fun wmult =>
      let active := (lines.filter (fun c => c.isSome)).length
      wageCost cfg rest (sIdx + 1)
        (acc + cfg.wage_per_slot_per_line * wmult * (active : ℚ))

/-- Penalty / on-time-count loop of `evaluate_schedule`
(`0.1 * qty * unit_price` flat penalty for each order not fully
delivered before due). -/
def penaltyOnTime (orders : List Order) (dbd : Map) : ℚ × Nat :=
  orders.foldl
    (fun acc o =>
      if o.qty ≤ dbd o.id then (acc.1, acc.2 + 1)
      else (acc.1 + (1 / 10 : ℚ) * (o.qty : ℚ) * o.unit_price, acc.2))
    (0, 0)

/-- `evaluate_schedule` from `fitness.py`. -/
def evaluate_schedule (schedule : Schedule) (cfg : Config) (orders : List Order) :
    Option EvaluationResult :=
  (decode_assignments schedule cfg orders).bind fun delivered_total =>
    (duePassSlots cfg orders schedule 0 (fun _ => 0) (initRemaining orders)).bind fun dr =>
      let dbd := dr.1
      let revdel := orders.foldl
        (fun acc o =>
          let units := min (delivered_total o.id) o.qty
          (acc.1 + (units : ℚ) * o.unit_price, Map.update acc.2 o.id units))
        ((0 : ℚ), (fun _ => 0 : Map))
      (prodCostActive cfg schedule 0 0 0).bind fun pca =>
        (wageCost cfg schedule 0 0).map fun wage =>
          let pot := penaltyOnTime orders dbd
          let total_orders := orders.length
          let on_time_rate : ℚ :=
            if total_orders = 0 then 0 else (pot.2 : ℚ) / (total_orders : ℚ)
          let penalty_rate : ℚ :=
            if total_orders = 0 then 0
            else (((total_orders : Int) - (pot.2 : Int) : Int) : ℚ) / (total_orders : ℚ)
          let utilization_rate : ℚ :=
            if pca.2.2 = 0 then 0 else (pca.2.1 : ℚ) / (pca.2.2 : ℚ)
          let profit := revdel.1 - pca.1 - wage - pot.1
          { total_revenue := revdel.1
            production_cost := pca.1
            wage_cost := wage
            penalty := pot.1
            profit := profit
            utilization_rate := utilization_rate
            on_time_rate := on_time_rate
            penalty_rate := penalty_rate
            delivered_per_order := revdel.2 }

/-- The sort key `(o.due_day, -(o.unit_price - cost))` of the decoder's
order sort. -/
def orderKey (cost : ℚ) (o : Order) : Int × ℚ :=
  (o.due_day, -(o.unit_price - cost))

/-! ## Heap model of the mutable Python objects

The GA mutates the nested schedule lists in place, so schedules are
modelled with an explicit heap: the inner line-arrays (the only objects
the source ever mutates) live in a `RowHeap`, addressed by index, and a
schedule value is a list of row addresses together with the Python
object identity of the outer list (`id(schedule)`, used as fitness-cache
key; outer lists are never mutated in place by the source, every write
is `schedule[s][l] = v`, a write into the inner row object).  Orders
live in an `OrderStore` so that non-mutation of the order records is
expressible. -/

/-- Heap of inner line-arrays; address = index, allocation = append. -/
abbrev RowHeap := List (List (Option Int))

/-- Store of `Order` objects; address = index. -/
abbrev OrderStore := List Order

/-- Index assignment `l[i] = v` on a Python list: `IndexError` (none)
when out of range. -/
def listSet? {α : Type} : List α → Nat → α → Option (List α)
  | [], _, _ => none
  | _ :: rest, 0, v => some (v :: rest)
  | x :: rest, n + 1, v => (listSet? rest n v).map (fun r => x :: r)

/-- `schedule[s][l] = v` in the heap: read the row object and write one
of its cells. -/
def heapWrite (heap : RowHeap) (a : Nat) (i : Nat) (v : Option Int) :
    Option RowHeap :=
  (heap.get? a).bind fun row =>
    (listSet? row i v).map fun row2 => heap.set a row2

/-- A heap schedule: the outer Python list object. `oid` is its
`id(...)` identity; `rows` the addresses of its inner line-arrays. -/
structure HSched where
  oid : Nat
  rows : List Nat
  deriving DecidableEq, Repr

/-- The oracle for the `random` module: the value of every draw,
consumed sequentially through a draw counter (Python's single shared
global stream). `qs k` is the float returned if draw `k` is
`random.random()`; `ns k` the entropy used if draw `k` is a
`randint`/`choice`. -/
structure Rng where
  qs : Nat → ℚ
  ns : Nat → Nat

/-- `random.random()`: consumes one draw. -/
def randomQ (g : Rng) (k : Nat) : ℚ × Nat := (g.qs k, k + 1)

/-- `random.randint(lo, hi)`: uniform on `[lo, hi]`; `ValueError` (none)
when the range is empty.  The oracle entropy is reduced mod the range
size, so any oracle yields an in-range value. -/
def randint (g : Rng) (lo hi : Int) (k : Nat) : Option (Int × Nat) :=
  if lo ≤ hi then some (lo + (g.ns k : Int) % (hi - lo + 1), k + 1) else none

/-- `random.choice(seq)` reduced to an index draw; `IndexError` (none)
on an empty sequence. -/
def chooseIdx (g : Rng) (n : Nat) (k : Nat) : Option (Nat × Nat) :=
  if n = 0 then none else some (g.ns k % n, k + 1)

/-! ## Heap versions of the decoder and evaluator

Every statement of `decode_assignments`, `evaluate_schedule` and
`compute_soft_fitness` only reads the schedule rows, the config and the
order fields, and writes function-local dicts; object reads are modelled
by heap/store lookups at the points the source performs them (rows read
per slot iteration, order records read where the source builds its local
lists; `dataclasses.replace` produces fresh value copies).  The heap and
store are threaded through and returned so that non-mutation of the
arguments is a provable statement. -/

/-- Slot loop of `decode_assignments` over row addresses. -/
def decodeSlotsH (cfg : Config) (prodOrds : Int → Option (List Order)) (heap : RowHeap) :
    List Nat → Nat → Map → Option (Map × RowHeap)
  | [], _, rem => some (rem, heap)
  | a :: rest, sIdx, rem =>
    (heap.get? a).bind fun lines =>
      (producedByProduct cfg lines []).bind fun pbp =>
        (allocSlot ((day_of_slot sIdx : Nat) : Int) prodOrds pbp rem).bind fun rem2 =>
          decodeSlotsH cfg prodOrds heap rest (sIdx + 1) rem2

/-- `decode_assignments` on the heap model. -/
def decode_assignmentsH (heap : RowHeap) (sched : List Nat) (cfg : Config)
    (ostore : OrderStore) (oaddrs : List Nat) :
    Option (Map × RowHeap × OrderStore) :=
  (oaddrs.mapM (fun a => ostore.get? a)).bind fun ords =>
    (decodeSlotsH cfg (prodOrdersFor cfg ords) heap sched 0 (initRemaining ords)).bind
      fun rh =>
        some (ords.foldl (fun m o => Map.update m o.id (o.qty - rh.1 o.id)) (fun _ => 0),
          rh.2, ostore)

/-- Slot loop of the before-due second pass on the heap model (also the
body of `_delivered_before_due`); the per-slot `subset` is rebuilt from
the order store each slot, as in the source. -/
def duePassSlotsH (cfg : Config) (ostore : OrderStore) (oaddrs : List Nat)
    (heap : RowHeap) : List Nat → Nat → Map → Map →
    Option ((Map × Map) × RowHeap × OrderStore)
  | [], _, dbd, rem => some ((dbd, rem), heap, ostore)
  | a :: rest, sIdx, dbd, rem =>
    (heap.get? a).bind fun lines =>
      (producedByProduct cfg lines []).bind fun pbp =>
        (oaddrs.mapM (fun a2 => ostore.get? a2)).bind fun orders =>
          (duePassSlot cfg orders ((day_of_slot sIdx : Nat) : Int) pbp dbd rem).bind
            fun dr => duePassSlotsH cfg ostore oaddrs heap rest (sIdx + 1) dr.1 dr.2

/-- `evaluate_schedule` on the heap model. -/
def evaluate_scheduleH (heap : RowHeap) (sched : List Nat) (cfg : Config)
    (ostore : OrderStore) (oaddrs : List Nat) :
    Option (EvaluationResult × RowHeap × OrderStore) :=
  (decode_assignmentsH heap sched cfg ostore oaddrs).bind fun dres =>
    (oaddrs.mapM (fun a => dres.2.2.get? a)).bind fun orders =>
      (duePassSlotsH cfg dres.2.2 oaddrs dres.2.1 sched 0 (fun _ => 0)
          (initRemaining orders)).bind fun ddr =>
        (sched.mapM (fun a => ddr.2.1.get? a)).bind fun rows =>
          (prodCostActive cfg rows 0 0 0).bind fun pca =>
            (wageCost cfg rows 0 0).map fun wage =>
              let delivered_total := dres.1
              let dbd := ddr.1.1
              let revdel := orders.foldl
                (fun acc o =>
                  let units := min (delivered_total o.id) o.qty
                  (acc.1 + (units : ℚ) * o.unit_price, Map.update acc.2 o.id units))
                ((0 : ℚ), (fun _ => 0 : Map))
              let pot := penaltyOnTime orders dbd
              let total_orders := orders.length
              let on_time_rate : ℚ :=
                if total_orders = 0 then 0 else (pot.2 : ℚ) / (total_orders : ℚ)
              let penalty_rate : ℚ :=
                if total_orders = 0 then 0
                else (((total_orders : Int) - (pot.2 : Int) : Int) : ℚ) / (total_orders : ℚ)
              let utilization_rate : ℚ :=
                if pca.2.2 = 0 then 0 else (pca.2.1 : ℚ) / (pca.2.2 : ℚ)
              ({ total_revenue := revdel.1
                 production_cost := pca.1
                 wage_cost := wage
                 penalty := pot.1
                 profit := revdel.1 - pca.1 - wage - pot.1
                 utilization_rate := utilization_rate
                 on_time_rate := on_time_rate
                 penalty_rate := penalty_rate
                 delivered_per_order := revdel.2 }, ddr.2.1, ddr.2.2)

/-- `_earliest_due_per_product` from `fitness.py` (dict with `.get`
default `None`). -/
def earliest_due_per_product (orders : List Order) : Int → Option Int :=
  orders.foldl
    (fun st o => fun q =>
      if q = o.product then
        match st o.product with
        | none => some o.due_day
        | some d => some (min d o.due_day)
      else st q)
    (fun _ => none)

/-- Soft term 1 of `compute_soft_fitness`: deadline pressure per
produced capacity near/past the product's earliest due day. -/
def softDeadlinePressure (cfg : Config) (earliest : Int → Option Int) :
    List (List (Option Int)) → Nat → ℚ → Option ℚ
  | [], _, acc => some acc
  | lines :: rest, sIdx, acc =>
    (lines.foldlM
      (fun a c =>
        match c with
        | none => some a
        | some pid =>
          (cfg.product_by_id pid).map fun (pr : Product) =>
            match earliest pid with
            | none => a + (1 / 2 : ℚ) * (pr.slot_capacity : ℚ)
            | some ed =>
              let days_to_due : Int := ed - ((day_of_slot sIdx : Nat) : Int)
              let pressure : ℚ :=
                if 3 ≤ days_to_due then 0
                else if 1 ≤ days_to_due then 1 + ((3 : ℚ) - (days_to_due : ℚ))
                else 5 + ((1 : ℚ) - (days_to_due : ℚ)) * 2
              a + pressure * (pr.slot_capacity : ℚ))
      acc).bind fun acc2 => softDeadlinePressure cfg earliest rest (sIdx + 1) acc2

/-- Soft term 3 of `compute_soft_fitness`: high-wage-slot activity. -/
def highWageSoft (cfg : Config) : List (List (Option Int)) → Nat → ℚ → Option ℚ
  | [], _, acc => some acc
  | lines :: rest, sIdx, acc =>
    (cfg.wage_multiplier_per_slot.get? (slot_in_day sIdx)).bind fun wmult =>
      let active := (lines.filter (fun c => c.isSome)).length
      highWageSoft cfg rest (sIdx + 1)
        (acc + cfg.wage_per_slot_per_line * max 0 (wmult - 1) * (active : ℚ))

/-- `compute_soft_fitness` on the heap model. -/
def compute_soft_fitnessH (heap : RowHeap) (sched : List Nat) (cfg : Config)
    (ostore : OrderStore) (oaddrs : List Nat)
    (alpha_deadline beta_late_units gamma_high_wage : ℚ) :
    Option (ℚ × RowHeap × OrderStore) :=
  (evaluate_scheduleH heap sched cfg ostore oaddrs).bind fun res =>
    (oaddrs.mapM (fun a => res.2.2.get? a)).bind fun orders =>
      (sched.mapM (fun a => res.2.1.get? a)).bind fun rows =>
        (softDeadlinePressure cfg (earliest_due_per_product orders) rows 0 0).bind
          fun sdp =>
            (duePassSlotsH cfg res.2.2 oaddrs res.2.1 sched 0 (fun _ => 0)
                (initRemaining orders)).bind fun ddr =>
              let dbd := ddr.1.1
              let late := orders.foldl
                (fun a o => a + ((max 0 (o.qty - dbd o.id) : Int) : ℚ) * o.unit_price / 100)
                (0 : ℚ)
              (if 0 < gamma_high_wage then highWageSoft cfg rows 0 0
                else some 0).map fun hw =>
                (res.1.profit - (alpha_deadline * sdp + beta_late_units * late
                  + gamma_high_wage * hw), ddr.2.1, ddr.2.2)

/-! ## VNS (`vns.py`) and SA (`sa.py`), value model

The three neighbourhood operators `deepcopy` their input before any
write, so they are modelled on schedule values (`deepcopy` of an
immutable value is the identity) with checked index reads/writes. -/

/-- `_product_urgency` from `vns.py`:
`stats[o.product] = min(stats.get(o.product, o.due_day), o.due_day)`. -/
def product_urgency (orders : List Order) : Int → Option Int :=
  orders.foldl
    (fun st o => fun q =>
      if q = o.product then some (min ((st o.product).getD o.due_day) o.due_day)
      else st q)
    (fun _ => none)

/-- Python `min(l, key=key)`: first element with minimal key
(`ValueError` on empty is the caller's guard). -/
def minByKey (l : List Int) (key : Int → Int) : Int :=
  match l with
  | [] => 0
  | x :: rest => rest.foldl (fun best y => if key y < key best then y else best) x

/-- The tuple swap `a[s][l], a[t][l] = a[t][l], a[s][l]` on a value
schedule: read both cells, then assign left-to-right. -/
def swapCells (sched : Schedule) (s t l : Nat) : Option Schedule :=
  (sched.get? t).bind fun rowT =>
    (rowT.get? l).bind fun vt =>
      (sched.get? s).bind fun rowS =>
        (rowS.get? l).bind fun _ =>
          (sched.get? s).bind fun rS2 =>
            (listSet? rS2 l vt).bind fun rS3 =>
              let sched1 := sched.set s rS3
              (sched1.get? t).bind fun rT2 =>
                (rowS.get? l).bind fun vs =>
                  (listSet? rT2 l vs).map fun rT3 => sched1.set t rT3

/-- `_neighbor_swap_adjacent` from `vns.py`. -/
def neighbor_swap_adjacent (schedule : Schedule) (cfg : Config) (g : Rng) (k : Nat) :
    Option (Schedule × Nat) :=
  if schedule.isEmpty then some (schedule, k)
  else
    let slots := schedule.length
    (randint g 0 ((cfg.lines : Int) - 1) k).bind fun lk =>
      (randint g 0 ((slots : Int) - 1) lk.2).bind fun sk =>
        if slots = 1 then some (schedule, sk.2)
        else
          (if sk.1.toNat = 0 then some ((1 : Nat), sk.2)
           else if sk.1.toNat = slots - 1 then some (slots - 2, sk.2)
           else
             let r := randomQ g sk.2
             some (if r.1 < 1 / 2 then sk.1.toNat + 1 else sk.1.toNat - 1, r.2)).bind
            fun tk =>
              (swapCells schedule sk.1.toNat tk.1 lk.1.toNat).map fun sch2 => (sch2, tk.2)

/-- `_neighbor_cross_line_reassign` from `vns.py`. -/
def neighbor_cross_line_reassign (schedule : Schedule) (cfg : Config)
    (orders : List Order) (g : Rng) (k : Nat) : Option (Schedule × Nat) :=
  if schedule.isEmpty then some (schedule, k)
  else
    let urgency := product_urgency orders
    (randint g 0 ((schedule.length : Int) - 1) k).bind fun sk =>
      (schedule.get? sk.1.toNat).bind fun row =>
        let present := row.filterMap id
        (if present ≠ [] then
          some (minByKey present (fun pid => (urgency pid).getD (10 ^ 9)))
         else if cfg.products = [] then none
         else some (minByKey (cfg.products.map (fun p => p.id))
           (fun pid => (urgency pid).getD (10 ^ 9)))).bind fun target =>
          (randint g 0 ((cfg.lines : Int) - 1) sk.2).bind fun lk =>
            (schedule.get? sk.1.toNat).bind fun row2 =>
              (listSet? row2 lk.1.toNat (some target)).map fun row3 =>
                (schedule.set sk.1.toNat row3, lk.2)

/-- The candidate scan of `_neighbor_block_shift`: earlier slots with a
strictly lower wage multiplier. -/
def blockShiftCands (cfg : Config) (src : ℚ) (s : Nat) : Option (List Nat) :=
  (List.range s).foldlM
    (fun acc t =>
      (cfg.wage_multiplier_per_slot.get? (slot_in_day t)).map fun w =>
        if w < src then acc ++ [t] else acc)
    []

/-- `_neighbor_block_shift` from `vns.py`. -/
def neighbor_block_shift (schedule : Schedule) (cfg : Config) (g : Rng) (k : Nat) :
    Option (Schedule × Nat) :=
  if schedule.isEmpty then some (schedule, k)
  else
    let slots := schedule.length
    (randint g 0 ((cfg.lines : Int) - 1) k).bind fun lk =>
      (randint g 0 ((slots : Int) - 1) lk.2).bind fun sk =>
        (cfg.wage_multiplier_per_slot.get? (slot_in_day sk.1.toNat)).bind
          fun src_wmult =>
            (blockShiftCands cfg src_wmult sk.1.toNat).bind fun candidates =>
              if candidates ≠ [] then
                (chooseIdx g candidates.length sk.2).bind fun ck =>
                  (candidates.get? ck.1).bind fun t =>
                    (swapCells schedule sk.1.toNat t lk.1.toNat).map fun sch2 =>
                      (sch2, ck.2)
              else
                let day_start := day_of_slot sk.1.toNat * cfg.wage_multiplier_per_slot.length
                if day_start < sk.1.toNat then
                  (swapCells schedule sk.1.toNat (sk.1.toNat - 1) lk.1.toNat).map
                    fun sch2 => (sch2, sk.2)
                else some (schedule, sk.2)

/-- The neighbourhood list `[swap_adjacent, cross_line_reassign,
block_shift]` shared by `vns_improve`, `run_sa` and
`_auto_initial_temp`, applied by index. -/
def vnsNeighborApply (idx : Nat) (sch : Schedule) (cfg : Config) (orders : List Order)
    (g : Rng) (k : Nat) : Option (Schedule × Nat) :=
  match idx with
  | 0 => neighbor_swap_adjacent sch cfg g k
  | 1 => neighbor_cross_line_reassign sch cfg orders g k
  | _ => neighbor_block_shift sch cfg g k

/-- The attempt loop of `vns_improve` over one neighbourhood: accept the
first strictly improving candidate, with the improved flag. -/
def vnsAttempts (cfg : Config) (orders : List Order) (idx : Nat) :
    Nat → Schedule → ℚ → Rng → Nat → Option ((Schedule × ℚ × Bool) × Nat)
  | 0, best, bestProfit, _, k => some ((best, bestProfit, false), k)
  | n + 1, best, bestProfit, g, k =>
    (vnsNeighborApply idx best cfg orders g k).bind fun ck =>
      (evaluate_schedule ck.1 cfg orders).bind fun ev =>
        if bestProfit < ev.profit then some ((ck.1, ev.profit, true), ck.2)
        else vnsAttempts cfg orders idx n best bestProfit g ck.2

/-- The neighbourhood loop of `vns_improve`: stop at the first
neighbourhood that improves. -/
def vnsNeighborhoods (cfg : Config) (orders : List Order) (attempts : Nat) :
    List Nat → Schedule → ℚ → Rng → Nat → Option ((Schedule × ℚ × Bool) × Nat)
  | [], best, bestProfit, _, k => some ((best, bestProfit, false), k)
  | idx :: rest, best, bestProfit, g, k =>
    (vnsAttempts cfg orders idx attempts best bestProfit g k).bind fun rk =>
      if rk.1.2.2 then some rk
      else vnsNeighborhoods cfg orders attempts rest rk.1.1 rk.1.2.1 g rk.2

/-- The round loop of `vns_improve`: restart from the first
neighbourhood after an improvement, stop early on a full pass without
improvement. -/
def vnsRounds (cfg : Config) (orders : List Order) (attempts : Nat) :
    Nat → Schedule → ℚ → Rng → Nat → Option ((Schedule × ℚ) × Nat)
  | 0, best, bestProfit, _, k => some ((best, bestProfit), k)
  | r + 1, best, bestProfit, g, k =>
    (vnsNeighborhoods cfg orders attempts [0, 1, 2] best bestProfit g k).bind fun rk =>
      if rk.1.2.2 then vnsRounds cfg orders attempts r rk.1.1 rk.1.2.1 g rk.2
      else some ((rk.1.1, rk.1.2.1), rk.2)

/-- `vns_improve` from `vns.py`: returns the improved schedule and its
profit. -/
def vns_improve (schedule : Schedule) (cfg : Config) (orders : List Order)
    (rounds attempts_per_neigh : Nat) (g : Rng) (k : Nat) :
    Option ((Schedule × ℚ) × Nat) :=
  (evaluate_schedule schedule cfg orders).bind fun ev =>
    vnsRounds cfg orders attempts_per_neigh rounds schedule ev.profit g k

/-- The sampling loop of `_auto_initial_temp` from `sa.py`: each sample
picks a random neighbourhood, applies it to the starting schedule, and
records the profit delta against the base profit. -/
def sampleDeltas (cfg : Config) (orders : List Order) (current : Schedule)
    (baseProfit : ℚ) : Nat → Rng → Nat → Option (List ℚ × Nat)
  | 0, _, k => some ([], k)
  | n + 1, g, k =>
    (chooseIdx g 3 k).bind fun ik =>
      (vnsNeighborApply ik.1 current cfg orders g ik.2).bind fun ck =>
        (evaluate_schedule ck.1 cfg orders).bind fun ev =>
          (sampleDeltas cfg orders current baseProfit n g ck.2).map fun rest =>
            ((ev.profit - baseProfit) :: rest.1, rest.2)

/-- `_auto_initial_temp` from `sa.py`: 1.0 when no worsening sample was
found, else `max(1.0, mean |worsening deltas|)`. -/
def auto_initial_temp (current : Schedule) (cfg : Config) (orders : List Order)
    (samples : Nat) (g : Rng) (k : Nat) : Option (ℚ × Nat) :=
  (evaluate_schedule current cfg orders).bind fun base =>
    (sampleDeltas cfg orders current base.profit samples g k).map fun dk =>
      let neg := (dk.1.filter (fun d => decide (d < 0))).map (fun d => |d|)
      if neg.isEmpty then ((1 : ℚ), dk.2)
      else (max 1 (neg.sum / (neg.length : ℚ)), dk.2)

/-! ## GA (`ga.py`) on the heap model

`crossover` builds children by list slicing, so the children's outer
lists hold the same inner row objects (addresses) as the parents;
`mutate` and `repair_schedule` write into those row objects in place.
Newly created outer lists get fresh object identities (`id(...)`,
modelled by a next-id counter) — the fitness cache of `run_ga` is keyed
by them. -/

/-- One cell of `random_schedule`: idle with probability 0.2 when idling
is allowed (short-circuit: no float draw when `allow_idle` is false),
else a uniformly chosen product id. -/
def randomCell (cfg : Config) (pids : List Int) (g : Rng) (k : Nat) :
    Option (Option Int × Nat) :=
  if cfg.allow_idle then
    let r := randomQ g k
    if r.1 < 1 / 5 then some (none, r.2)
    else (chooseIdx g pids.length r.2).bind fun ik =>
      (pids.get? ik.1).map fun pid => (some pid, ik.2)
  else
    (chooseIdx g pids.length k).bind fun ik =>
      (pids.get? ik.1).map fun pid => (some pid, ik.2)

/-- The line loop of `random_schedule` building one slot's row. -/
def randomRow (cfg : Config) (pids : List Int) :
    Nat → Rng → Nat → Option (List (Option Int) × Nat)
  | 0, _, k => some ([], k)
  | n + 1, g, k =>
    (randomCell cfg pids g k).bind fun ck =>
      (randomRow cfg pids n g ck.2).map fun rk => (ck.1 :: rk.1, rk.2)

/-- The slot loop of `random_schedule`: allocate each fresh row on the
heap and record its address. -/
def random_scheduleRows (cfg : Config) (pids : List Int) :
    Nat → RowHeap → Rng → Nat → Option (List Nat × RowHeap × Nat)
  | 0, heap, _, k => some ([], heap, k)
  | n + 1, heap, g, k =>
    (randomRow cfg pids cfg.lines g k).bind fun rk =>
      (random_scheduleRows cfg pids n (heap ++ [rk.1]) g rk.2).map fun rest =>
        (heap.length :: rest.1, rest.2)

/-- `random_schedule` from `ga.py` on the heap model. -/
def random_scheduleH (horizon_days : Nat) (cfg : Config) (heap : RowHeap)
    (g : Rng) (k nid : Nat) : Option (HSched × RowHeap × Nat × Nat) :=
  let pids := cfg.products.map (fun p => p.id)
  (random_scheduleRows cfg pids (horizon_days * SLOTS_PER_DAY) heap g k).map
    fun rk => (⟨nid, rk.1⟩, rk.2.1, rk.2.2, nid + 1)

/-- `crossover` from `ga.py`: children are built by slicing, so their
rows are the parents' row ADDRESSES — no inner row is copied.  The
failed `assert` on unequal lengths and the `ValueError` of
`randint(1, 0)` on a 1-slot horizon are `none`. -/
def crossoverH (p1 p2 : HSched) (g : Rng) (k nid : Nat) :
    Option ((HSched × HSched) × Nat × Nat) :=
  if p1.rows.length = p2.rows.length then
    let slots := p1.rows.length
    if slots ≤ 3 then
      let days : Nat := max 1 (slots / SLOTS_PER_DAY)
      (if 1 < days then
        (randint g 1 (max 1 ((days : Int) - 1)) k).map fun rk =>
          ((rk.1 * (SLOTS_PER_DAY : Int)).toNat, rk.2)
       else
        (randint g 1 ((slots : Int) - 1) k).map fun rk =>
          (rk.1.toNat, rk.2)).map fun pk =>
        ((⟨nid, p1.rows.take pk.1 ++ p2.rows.drop pk.1⟩,
          ⟨nid + 1, p2.rows.take pk.1 ++ p1.rows.drop pk.1⟩), pk.2, nid + 2)
    else
      (chooseIdx g 2 k).bind fun wk =>
        let win_len : Nat := if wk.1 = 0 then 2 else 3
        (randint g 0 ((slots : Int) - (win_len : Int)) wk.2).map fun sk =>
          let start := sk.1.toNat
          ((⟨nid, p1.rows.take start ++ (p2.rows.drop start).take win_len
              ++ p1.rows.drop (start + win_len)⟩,
            ⟨nid + 1, p2.rows.take start ++ (p1.rows.drop start).take win_len
              ++ p2.rows.drop (start + win_len)⟩), sk.2, nid + 2)
  else none

/-- `list(map(list, p))`: a fresh outer list of fresh row copies. -/
def copyRows (heap : RowHeap) : List Nat → Option (List Nat × RowHeap)
  | [] => some ([], heap)
  | a :: rest =>
    (heap.get? a).bind fun row =>
      (copyRows (heap ++ [row]) rest).map fun rk => (heap.length :: rk.1, rk.2)

/-- The non-crossover branch of the GA loop: a row-by-row copy of a
parent with a fresh object identity. -/
def copyH (p : HSched) (heap : RowHeap) (nid : Nat) :
    Option (HSched × RowHeap × Nat) :=
  (copyRows heap p.rows).map fun rk => (⟨nid, rk.1⟩, rk.2, nid + 1)

/-- The inner line loop of `mutate`: with probability `pm` per cell,
idle-insert / product flip / in-slot line swap, writing into the row
object in place. -/
def mutateCells (addr : Nat) (cfg : Config) (pm : ℚ) (pids : List Int) :
    Nat → Nat → RowHeap → Rng → Nat → Option (RowHeap × Nat)
  | _, 0, heap, _, k => some (heap, k)
  | l, fuel + 1, heap, g, k =>
    let r0 := randomQ g k
    (if r0.1 < pm then
      let r := randomQ g r0.2
      if cfg.allow_idle ∧ r.1 < 1 / 4 then
        (heapWrite heap addr l none).map fun h2 => (h2, r.2)
      else if r.1 < 3 / 4 then
        (chooseIdx g pids.length r.2).bind fun ik =>
          (pids.get? ik.1).bind fun pid =>
            (heapWrite heap addr l (some pid)).map fun h2 => (h2, ik.2)
      else
        (randint g 0 ((cfg.lines : Int) - 1) r.2).bind fun jk =>
          let j := jk.1.toNat
          (heap.get? addr).bind fun row =>
            (row.get? l).bind fun vl =>
              (row.get? j).bind fun vj =>
                (heapWrite heap addr l vj).bind fun h1 =>
                  (heapWrite h1 addr j vl).map fun h2 => (h2, jk.2)
     else some (heap, r0.2)).bind fun hk =>
      mutateCells addr cfg pm pids (l + 1) fuel hk.1 g hk.2

/-- The per-slot night-bias step of `mutate`: on expensive slots
(multiplier ≥ 1.35) with idling allowed, idle one random active line
with probability `pm / 2`. -/
def nightBias (addr : Nat) (cfg : Config) (pm : ℚ) (s : Nat) (heap : RowHeap)
    (g : Rng) (k : Nat) : Option (RowHeap × Nat) :=
  (cfg.wage_multiplier_per_slot.get? (slot_in_day s)).bind fun wmult =>
    if 27 / 20 ≤ wmult ∧ cfg.allow_idle then
      let r := randomQ g k
      if r.1 < pm * (1 / 2) then
        (heap.get? addr).bind fun row =>
          let active := (row.enum.filter (fun p => p.2.isSome)).map (fun p => p.1)
          if active ≠ [] then
            (chooseIdx g active.length r.2).bind fun ik =>
              (active.get? ik.1).bind fun i =>
                (heapWrite heap addr i none).map fun h2 => (h2, ik.2)
          else some (heap, r.2)
      else some (heap, r.2)
    else some (heap, k)

/-- The slot loop of `mutate`. -/
def mutateSlots (cfg : Config) (pm : ℚ) (pids : List Int) :
    List Nat → Nat → RowHeap → Rng → Nat → Option (RowHeap × Nat)
  | [], _, heap, _, k => some (heap, k)
  | addr :: rest, s, heap, g, k =>
    (heap.get? addr).bind fun row =>
      (mutateCells addr cfg pm pids 0 row.length heap g k).bind fun hk =>
        (nightBias addr cfg pm s hk.1 g hk.2).bind fun hk2 =>
          mutateSlots cfg pm pids rest (s + 1) hk2.1 g hk2.2

/-- `mutate` from `ga.py`: mutates the schedule's row objects in place
(returns the new heap). -/
def mutateH (sched : HSched) (cfg : Config) (pm : ℚ) (heap : RowHeap)
    (g : Rng) (k : Nat) : Option (RowHeap × Nat) :=
  let pids := cfg.products.map (fun p => p.id)
  mutateSlots cfg pm pids sched.rows 0 heap g k

/-- `_product_urgency` from `ga.py` — the same computation as
`_earliest_due_per_product` in `fitness.py`. -/
def product_urgencyGA (orders : List Order) : Int → Option Int :=
  earliest_due_per_product orders

/-- The line loop of `repair_schedule` on a high-wage slot. -/
def repairRow (addr : Nat) (urgency : Int → Option Int) (day : Int) :
    Nat → Nat → RowHeap → Rng → Nat → Option (RowHeap × Nat)
  | _, 0, heap, _, k => some (heap, k)
  | i, fuel + 1, heap, g, k =>
    ((heap.get? addr).bind fun row => row.get? i).bind fun lc =>
      (match lc with
       | none => some (heap, k)
       | some pid =>
         match urgency pid with
         | none => (heapWrite heap addr i (none : Option Int)).map fun h2 => (h2, k)
         | some due =>
           if day + 2 < due then
             let r := randomQ g k
             if r.1 < 3 / 10 then
               (heapWrite heap addr i (none : Option Int)).map fun h2 => (h2, r.2)
             else some (heap, r.2)
           else some (heap, k)).bind fun hk =>
        repairRow addr urgency day (i + 1) fuel hk.1 g hk.2

/-- The slot loop of `repair_schedule`: only slots with wage multiplier
≥ 1.35 are touched. -/
def repairSlots (cfg : Config) (urgency : Int → Option Int) :
    List Nat → Nat → RowHeap → Rng → Nat → Option (RowHeap × Nat)
  | [], _, heap, _, k => some (heap, k)
  | addr :: rest, s, heap, g, k =>
    (cfg.wage_multiplier_per_slot.get? (slot_in_day s)).bind fun wmult =>
      if wmult < 27 / 20 then repairSlots cfg urgency rest (s + 1) heap g k
      else
        ((heap.get? addr).map List.length).bind fun len =>
          (repairRow addr urgency ((day_of_slot s : Nat) : Int) 0 len heap g k).bind
            fun hk => repairSlots cfg urgency rest (s + 1) hk.1 g hk.2

/-- `repair_schedule` from `ga.py` on the heap model (reads the order
records once, to build the urgency dict). -/
def repair_scheduleH (sched : HSched) (cfg : Config) (ostore : OrderStore)
    (oaddrs : List Nat) (heap : RowHeap) (g : Rng) (k : Nat) :
    Option (RowHeap × Nat) :=
  (oaddrs.mapM (fun a => ostore.get? a)).bind fun orders =>
    repairSlots cfg (product_urgencyGA orders) sched.rows 0 heap g k

/-- The draw loop of `tournament_select` (short-circuit: `fitnesses` is
only indexed when a comparison is needed). -/
def tournamentLoop (fitnesses : List ℚ) (n : Nat) :
    Nat → Option Nat → Rng → Nat → Option (Option Nat × Nat)
  | 0, besti, _, k => some (besti, k)
  | t + 1, besti, g, k =>
    (randint g 0 ((n : Int) - 1) k).bind fun ik =>
      let i := ik.1.toNat
      (match besti with
       | none => some true
       | some b =>
         (fitnesses.get? i).bind fun fi =>
           (fitnesses.get? b).map fun fb => fb < fi).bind fun better =>
        tournamentLoop fitnesses n t (if better then some i else besti) g ik.2

/-- `tournament_select` from `ga.py` (the failed assert on an empty
tournament is `none`). -/
def tournament_selectH (fitnesses : List ℚ) (n kk : Nat) (g : Rng) (k : Nat) :
    Option (Nat × Nat) :=
  (tournamentLoop fitnesses n kk none g k).bind fun bk =>
    match bk.1 with
    | none => none
    | some b => some (b, bk.2)

/-- The `fitness` closure of `run_ga` with its `eval_cache` keyed by the
schedule's object identity `id(schedule)`. -/
def fitnessH (useSoft : Bool) (a b c : ℚ) (cfg : Config) (oaddrs : List Nat)
    (heap : RowHeap) (ostore : OrderStore) (cache : List (Nat × ℚ))
    (sched : HSched) : Option ((ℚ × List (Nat × ℚ)) × RowHeap × OrderStore) :=
  match cache.lookup sched.oid with
  | some v => some ((v, cache), heap, ostore)
  | none =>
    if useSoft then
      (compute_soft_fitnessH heap sched.rows cfg ostore oaddrs a b c).map fun sc =>
        ((sc.1, (sched.oid, sc.1) :: cache), sc.2.1, sc.2.2)
    else
      (evaluate_scheduleH heap sched.rows cfg ostore oaddrs).map fun res =>
        ((res.1.profit, (sched.oid, res.1.profit) :: cache), res.2.1, res.2.2)

/-- `[fitness(ind) for ind in population]`. -/
def gaFitAll (useSoft : Bool) (a b c : ℚ) (cfg : Config) (oaddrs : List Nat) :
    List HSched → RowHeap → OrderStore → List (Nat × ℚ) →
      Option ((List ℚ × List (Nat × ℚ)) × RowHeap × OrderStore)
  | [], heap, ostore, cache => some (([], cache), heap, ostore)
  | p :: rest, heap, ostore, cache =>
    (fitnessH useSoft a b c cfg oaddrs heap ostore cache p).bind fun fc =>
      (gaFitAll useSoft a b c cfg oaddrs rest fc.2.1 fc.2.2 fc.1.2).map fun rk =>
        ((fc.1.1 :: rk.1.1, rk.1.2), rk.2)

/-- `max(range(n), key=lambda i: fs[i])`: the first index with maximal
value (`ValueError`/`IndexError` are `none`). -/
def argmaxFirst (fs : List ℚ) (n : Nat) : Option Nat :=
  match List.range n with
  | [] => none
  | i0 :: rest =>
    (fs.get? i0).bind fun f0 =>
      (rest.foldlM
        (fun bp i => (fs.get? i).map fun fi =>
          if bp.2 < fi then (i, fi) else bp)
        (i0, f0)).map fun bp => bp.1

/-- The initial-population loop of `run_ga`. -/
def gaInitPop (horizon_days : Nat) (cfg : Config) :
    Nat → RowHeap → Rng → Nat → Nat → Option (List HSched × RowHeap × Nat × Nat)
  | 0, heap, _, k, nid => some ([], heap, k, nid)
  | n + 1, heap, g, k, nid =>
    (random_scheduleH horizon_days cfg heap g k nid).bind fun rk =>
      (gaInitPop horizon_days cfg n rk.2.1 g rk.2.2.1 rk.2.2.2).map fun rest =>
        (rk.1 :: rest.1, rest.2)

/-- The breeding `while` loop of one GA generation: selection,
crossover (or plain copies), in-place mutation and repair, children
appended in pairs until the population is full.  The loop adds two
children per pass, so `pop_size` passes always suffice; the fuel-out
case (`none`) is unreachable for the fuel `run_ga` supplies. -/
def gaBreed (cfg : Config) (ostore : OrderStore) (oaddrs : List Nat)
    (pc pm : ℚ) (pop_size : Nat) (population : List HSched)
    (fitnesses : List ℚ) (g : Rng) :
    Nat → List HSched → RowHeap → Nat → Nat →
      Option (List HSched × RowHeap × Nat × Nat)
  | 0, newPop, heap, k, nid =>
    if pop_size ≤ newPop.length then some (newPop, heap, k, nid) else none
  | fuel + 1, newPop, heap, k, nid =>
    if pop_size ≤ newPop.length then some (newPop, heap, k, nid)
    else
      (tournament_selectH fitnesses population.length 3 g k).bind fun i1 =>
        (tournament_selectH fitnesses population.length 3 g i1.2).bind fun i2 =>
          (population.get? i1.1).bind fun p1 =>
            (population.get? i2.1).bind fun p2 =>
              let r := randomQ g i2.2
              (if r.1 < pc then
                (crossoverH p1 p2 g r.2 nid).map fun ck =>
                  (ck.1, heap, ck.2.1, ck.2.2)
               else
                (copyH p1 heap nid).bind fun c1k =>
                  (copyH p2 c1k.2.1 c1k.2.2).map fun c2k =>
                    ((c1k.1, c2k.1), c2k.2.1, r.2, c2k.2.2)).bind fun cc =>
                (mutateH cc.1.1 cfg pm cc.2.1 g cc.2.2.1).bind fun m1 =>
                  (mutateH cc.1.2 cfg pm m1.1 g m1.2).bind fun m2 =>
                    (repair_scheduleH cc.1.1 cfg ostore oaddrs m2.1 g m2.2).bind
                      fun r1 =>
                        (repair_scheduleH cc.1.2 cfg ostore oaddrs r1.1 g r1.2).bind
                          fun r2 =>
                            gaBreed cfg ostore oaddrs pc pm pop_size population
                              fitnesses g fuel (newPop ++ [cc.1.1, cc.1.2])
                              r2.1 r2.2 cc.2.2.2

/-- The whole mutable state of `run_ga` between generations. -/
structure GAState where
  population : List HSched
  fitnesses : List ℚ
  best : HSched
  best_fit : ℚ
  best_eval : EvaluationResult
  heap : RowHeap
  ostore : OrderStore
  cache : List (Nat × ℚ)
  k : Nat
  nid : Nat

/-- One generation of `run_ga`: breed (elitism appends `best` first),
truncate to `pop_size`, re-evaluate fitnesses through the cache, and
update the incumbent best on strict improvement only. -/
def gaGeneration (useSoft : Bool) (a b c pc pm : ℚ) (cfg : Config)
    (oaddrs : List Nat) (pop_size : Nat) (g : Rng) (st : GAState) :
    Option GAState :=
  (gaBreed cfg st.ostore oaddrs pc pm pop_size st.population st.fitnesses g
      pop_size [st.best] st.heap st.k st.nid).bind fun br =>
    let pop2 := br.1.take pop_size
    (gaFitAll useSoft a b c cfg oaddrs pop2 br.2.1 st.ostore st.cache).bind fun fl =>
      (argmaxFirst fl.1.1 pop_size).bind fun bidx =>
        (fl.1.1.get? bidx).bind fun bfit =>
          if st.best_fit < bfit then
            (pop2.get? bidx).bind fun nb =>
              (evaluate_scheduleH fl.2.1 nb.rows cfg fl.2.2 oaddrs).map fun bev =>
                { population := pop2, fitnesses := fl.1.1, best := nb
                  best_fit := bfit, best_eval := bev.1, heap := bev.2.1
                  ostore := bev.2.2, cache := fl.1.2, k := br.2.2.1
                  nid := br.2.2.2 }
          else
            some { population := pop2, fitnesses := fl.1.1, best := st.best
                   best_fit := st.best_fit, best_eval := st.best_eval
                   heap := fl.2.1, ostore := fl.2.2, cache := fl.1.2
                   k := br.2.2.1, nid := br.2.2.2 }

/-- The generation loop of `run_ga`. -/
def gaLoop (useSoft : Bool) (a b c pc pm : ℚ) (cfg : Config) (oaddrs : List Nat)
    (pop_size : Nat) (g : Rng) : Nat → GAState → Option GAState
  | 0, st => some st
  | n + 1, st =>
    (gaGeneration useSoft a b c pc pm cfg oaddrs pop_size g st).bind fun st2 =>
      gaLoop useSoft a b c pc pm cfg oaddrs pop_size g n st2

/-- `run_ga` from `ga.py` on the heap model: returns `(best, best_eval)`
together with the final state (heap, caches, counters). -/
def run_gaH (cfg : Config) (ostore : OrderStore) (oaddrs : List Nat)
    (horizon_days generations pop_size : Nat) (pc pm : ℚ) (useSoft : Bool)
    (a b c : ℚ) (heap : RowHeap) (g : Rng) (k nid : Nat) :
    Option (HSched × EvaluationResult × GAState) :=
  (gaInitPop horizon_days cfg pop_size heap g k nid).bind fun ip =>
    (gaFitAll useSoft a b c cfg oaddrs ip.1 ip.2.1 ostore []).bind fun fl =>
      (argmaxFirst fl.1.1 pop_size).bind fun bidx =>
        (ip.1.get? bidx).bind fun best =>
          (fl.1.1.get? bidx).bind fun bfit =>
            (evaluate_scheduleH fl.2.1 best.rows cfg fl.2.2 oaddrs).bind fun bev =>
              (gaLoop useSoft a b c pc pm cfg oaddrs pop_size g generations
                  { population := ip.1, fitnesses := fl.1.1, best := best
                    best_fit := bfit, best_eval := bev.1, heap := bev.2.1
                    ostore := bev.2.2, cache := fl.1.2, k := ip.2.2.1
                    nid := ip.2.2.2 }).map fun st =>
                (st.best, st.best_eval, st)

/-! ## Concrete instances used by the claims -/

/-- Config of the spec's scenario example: one line, one product with
rate 10/hour and unit cost 30, wage 100, all multipliers 1. -/
def cfgC4 : Config :=
  { lines := 1
    products := [{ id := 1, rate_per_hour := 10, unit_cost := 30 }]
    wage_per_slot_per_line := 100
    wage_multiplier_per_slot := [1, 1, 1, 1, 1, 1]
    allow_idle := true }

/-- The scenario's single order: qty 40 at price 50, arrival day 0 slot 0,
due day 1. -/
def orderC4 : Order :=
  { id := "O1", product := 1, qty := 40, unit_price := 50
    arrival_day := 0, arrival_slot_index := 0, due_day := 1 }

/-- The scenario's schedule: produce in slot 0 only, over a 6-slot
horizon. -/
def schedC4 : Schedule := [[some 1], [none], [none], [none], [none], [none]]

/-- The all-idle 6-slot schedule (baseline for the capacity-monotonicity
claim). -/
def schedIdle6 : Schedule := [[none], [none], [none], [none], [none], [none]]

/-- Delivered-units map of `schedC4` on the single order. -/
def dC6one : Map := fun x => if x = "O1" then 40 else 0

/-- Delivered-units map of `schedIdle6` on the single order. -/
def dC6zero : Map := fun x => if x = "O1" then 0 else 0

/-- Witness heap: the rows of `schedC4`. -/
def heapW : RowHeap := [[some 1], [none], [none], [none], [none], [none]]

/-- Witness schedule: row addresses 0..5. -/
def schedAddrW : List Nat := [0, 1, 2, 3, 4, 5]

/-- Witness order store holding the scenario order. -/
def ostoreW : OrderStore := [orderC4]

/-- Witness order address list. -/
def oaddrW : List Nat := [0]

/-- The evaluation result of the witness scenario. -/
def resW : EvaluationResult :=
  { total_revenue := 2000, production_cost := 1200, wage_cost := 100, penalty := 0
    profit := 700, utilization_rate := 1 / 6, on_time_rate := 1, penalty_rate := 0
    delivered_per_order := dC6one }

/-- All-zeros random oracle. -/
def rng0W : Rng := { qs := fun _ => 0, ns := fun _ => 0 }

/-- Evaluation result of the one-line one-slot all-idle schedule with no
orders. -/
def resEmptyW : EvaluationResult :=
  { total_revenue := 0, production_cost := 0, wage_cost := 0, penalty := 0
    profit := 0, utilization_rate := 0, on_time_rate := 0, penalty_rate := 0
    delivered_per_order := fun _ => 0 }

/-- Config for the initial-temperature counterexample: like `cfgC4` but
the second slot of the day costs multiplier 1 + 1/200. -/
def cfg7 : Config :=
  { lines := 1
    products := [{ id := 1, rate_per_hour := 10, unit_cost := 30 }]
    wage_per_slot_per_line := 100
    wage_multiplier_per_slot := [1, 1 + 1 / 200, 1, 1, 1, 1]
    allow_idle := true }

/-- Two-slot schedule producing in the cheap slot 0 only. -/
def sched7 : Schedule := [[some 1], [none]]

/-- Random oracle driving the elitism-corruption GA run: the first
individual produces in slot 0 only, the second is all idle; the second
tournament picks the idle parent; crossover swaps the first two-slot
window; the mutation of the second child flips the elite's first row to
idle. -/
def rngGA : Rng :=
  { qs := fun k =>
      if k ∈ ([2, 3, 4, 5, 6, 7, 8, 9, 10, 11, 12, 28, 29] : List Nat) then 0
      else 9 / 10
    ns := fun k => if k ∈ ([16, 17, 18] : List Nat) then 1 else 0 }

/-- Twelve single-line rows: parents' row objects for the crossover
aliasing demonstration (row 0 produces product 1, the rest idle). -/
def heapGA2 : RowHeap :=
  [[some 1], [none], [none], [none], [none], [none],
   [none], [none], [none], [none], [none], [none]]

/-- First crossover parent: outer list 0, rows 0–5. -/
def hsA : HSched := { oid := 0, rows := [0, 1, 2, 3, 4, 5] }

/-- Second crossover parent: outer list 1, rows 6–11. -/
def hsB : HSched := { oid := 1, rows := [6, 7, 8, 9, 10, 11] }

/-- Evaluation result of `sched7` under `cfg7` on the scenario order. -/
def res7 : EvaluationResult :=
  { total_revenue := 2000, production_cost := 1200, wage_cost := 100, penalty := 0
    profit := 700, utilization_rate := 1 / 2, on_time_rate := 1, penalty_rate := 0
    delivered_per_order := dC6one }

/-! # Theorems -/

@[simp] theorem Map.update_same (m : Map) (k : String) (v : Int) :
    Map.update m k v k = v := by simp [Map.update]

@[simp] theorem Map.update_other (m : Map) (k x : String) (v : Int) (h : x ≠ k) :
    Map.update m k v x = m x := by simp [Map.update, h]

/-- C4: on the concrete 1-line / 1-product / 1-order scenario,
`evaluate_schedule` returns delivered = 40, revenue = 2000,
production cost = 1200, wage cost = 100, penalty = 0, profit = 700,
utilization 1/6 and on-time rate 1. -/
theorem C4_scenario_example :
    (evaluate_schedule schedC4 cfgC4 [orderC4]).map
        (fun r => (r.total_revenue, r.production_cost, r.wage_cost, r.penalty,
          r.profit, r.utilization_rate, r.on_time_rate, r.delivered_per_order "O1"))
      = some (2000, 1200, 100, 0, 700, 1 / 6, 1, 40) := by
  with_unfolding_all rfl

/-! ## Permutation and stability facts about the modelled stable sort -/

theorem insSorted_perm (le : Order → Order → Bool) (x : Order) (l : List Order) :
    List.Perm (insSorted le x l) (x :: l) := by
  induction l with
  | nil => exact List.Perm.refl _
  | cons y t ih =>
    simp only [insSorted]
    by_cases h : le x y = true
    · simp only [h, if_true]
      exact List.Perm.refl _
    · simp only [h, if_false]
      exact (ih.cons y).trans (List.Perm.swap x y t)

theorem sortOrders_perm (le : Order → Order → Bool) (l : List Order) :
    List.Perm (sortOrders le l) l := by
  induction l with
  | nil => exact List.Perm.refl _
  | cons x t ih => exact (insSorted_perm le x (sortOrders le t)).trans (ih.cons x)

/-! ## Generic facts about dicts built by repeated update -/

theorem foldl_update_not_mem (f : Order → Int) (orders : List Order) :
    ∀ (base : Map) (id : String), id ∉ orders.map Order.id →
      (orders.foldl (fun m o => Map.update m o.id (f o)) base) id = base id := by
  induction orders with
  | nil => intro base id _; rfl
  | cons a rest ih =>
    intro base id hid
    simp only [List.map_cons, List.mem_cons, not_or] at hid
    simp only [List.foldl_cons]
    rw [ih _ _ hid.2, Map.update_other _ _ _ _ hid.1]

theorem foldl_update_eq (f : Order → Int) (orders : List Order)
    (h : orders.Pairwise (fun a b => a.id ≠ b.id)) (o : Order) (ho : o ∈ orders) :
    ∀ base : Map,
      (orders.foldl (fun m o => Map.update m o.id (f o)) base) o.id = f o := by
  induction orders with
  | nil => cases ho
  | cons a rest ih =>
    intro base
    rcases List.mem_cons.mp ho with rfl | hmem
    · simp only [List.foldl_cons]
      have hnot : o.id ∉ rest.map Order.id := by
        intro hc
        rcases List.mem_map.mp hc with ⟨b, hb, hbid⟩
        exact (List.pairwise_cons.mp h).1 b hb hbid.symm
      rw [foldl_update_not_mem _ _ _ _ hnot, Map.update_same]
    · exact ih (List.pairwise_cons.mp h).2 hmem _

/-! ## Facts about the greedy per-product consumption loop -/

theorem allocOrders_untouched (day : Int) (os : List Order) :
    ∀ (produced : Int) (rem : Map) (id : String), id ∉ os.map Order.id →
      (allocOrders day os produced rem).1 id = rem id := by
  induction os with
  | nil => intro produced rem id _; rfl
  | cons o rest ih =>
    intro produced rem id hid
    simp only [List.map_cons, List.mem_cons, not_or] at hid
    simp only [allocOrders]
    split
    · exact ih _ _ _ hid.2
    split
    · exact ih _ _ _ hid.2
    split
    · split
      · exact Map.update_other _ _ _ _ hid.1
      · rw [ih _ _ _ hid.2]
        exact Map.update_other _ _ _ _ hid.1
    · split
      · rfl
      · exact ih _ _ _ hid.2

theorem allocOrders_rem_le (day : Int) (os : List Order) :
    ∀ (produced : Int) (rem : Map) (id : String),
      (allocOrders day os produced rem).1 id ≤ rem id := by
  induction os with
  | nil => intro produced rem id; exact le_refl _
  | cons o rest ih =>
    intro produced rem id
    have hupd : ∀ v, v ≤ rem o.id → (Map.update rem o.id v) id ≤ rem id := by
      intro v hv
      by_cases hid : id = o.id
      · subst hid; rw [Map.update_same]; exact hv
      · rw [Map.update_other _ _ _ _ hid]
    simp only [allocOrders]
    split
    · exact ih _ _ _
    split
    · exact ih _ _ _
    split
    · split
      · refine hupd _ ?_
        have := min_le_left (rem o.id) produced
        omega
      · refine le_trans (ih _ _ _) (hupd _ ?_)
        have := min_le_left (rem o.id) produced
        omega
    · split
      · exact le_refl _
      · exact ih _ _ _

theorem allocOrders_rem_nonneg (day : Int) (os : List Order) :
    ∀ (produced : Int) (rem : Map), (∀ id, 0 ≤ rem id) →
      ∀ id, 0 ≤ (allocOrders day os produced rem).1 id := by
  induction os with
  | nil => intro produced rem h id; exact h id
  | cons o rest ih =>
    intro produced rem h id
    have hupd : ∀ j, 0 ≤ (Map.update rem o.id (rem o.id - min (rem o.id) produced)) j := by
      intro j
      by_cases hj : j = o.id
      · subst hj
        rw [Map.update_same]
        have := min_le_left (rem o.id) produced
        omega
      · rw [Map.update_other _ _ _ _ hj]
        exact h j
    simp only [allocOrders]
    split
    · exact ih _ _ h id
    split
    · exact ih _ _ h id
    split
    · split
      · exact hupd id
      · exact ih _ _ hupd id
    · split
      · exact h id
      · exact ih _ _ h id

theorem allocOrders_produced_nonneg (day : Int) (os : List Order) :
    ∀ (produced : Int) (rem : Map), 0 ≤ produced →
      0 ≤ (allocOrders day os produced rem).2 := by
  induction os with
  | nil => intro produced rem h; exact h
  | cons o rest ih =>
    intro produced rem h
    simp only [allocOrders]
    split
    · exact ih _ _ h
    split
    · exact ih _ _ h
    split
    · split
      · have := min_le_right (rem o.id) produced
        omega
      · refine ih _ _ ?_
        have := min_le_right (rem o.id) produced
        omega
    · split
      · exact h
      · exact ih _ _ h

theorem allocOrders_sum_consumed (day : Int) (os : List Order)
    (hid : os.Pairwise (fun a b => a.id ≠ b.id)) :
    ∀ (produced : Int) (rem : Map),
      ((os.map (fun o => rem o.id - (allocOrders day os produced rem).1 o.id)).sum)
        = produced - (allocOrders day os produced rem).2 := by
  induction os with
  | nil => intro produced rem; simp [allocOrders]
  | cons o rest ih =>
    rcases List.pairwise_cons.mp hid with ⟨hhead, htail⟩
    have hnot : o.id ∉ rest.map Order.id := by
      intro hc
      rcases List.mem_map.mp hc with ⟨b, hb, hbid⟩
      exact hhead b hb hbid.symm
    intro produced rem
    simp only [allocOrders, List.map_cons, List.sum_cons]
    split
    · rw [allocOrders_untouched day rest _ _ _ hnot, ih htail]
      ring
    split
    · rw [allocOrders_untouched day rest _ _ _ hnot, ih htail]
      ring
    split
    · rename_i havail hneed htake
      split
      · dsimp only
        have h1 : Map.update rem o.id (rem o.id - min (rem o.id) produced) o.id
            = rem o.id - min (rem o.id) produced := Map.update_same _ _ _
        rw [h1]
        have h2 : ((rest.map fun b => rem b.id -
            Map.update rem o.id (rem o.id - min (rem o.id) produced) b.id)).sum = 0 := by
          refine List.sum_eq_zero ?_
          intro x hx
          rcases List.mem_map.mp hx with ⟨b, hb, hbx⟩
          have : b.id ≠ o.id := fun he => hhead b hb he.symm
          rw [Map.update_other _ _ _ _ this] at hbx
          omega
        rw [h2]
        ring
      · have hrem1 : ∀ b ∈ rest, rem b.id
            = Map.update rem o.id (rem o.id - min (rem o.id) produced) b.id := by
          intro b hb
          have : b.id ≠ o.id := fun he => hhead b hb he.symm
          rw [Map.update_other _ _ _ _ this]
        have h1 : (allocOrders day rest (produced - min (rem o.id) produced)
              (Map.update rem o.id (rem o.id - min (rem o.id) produced))).1 o.id
            = rem o.id - min (rem o.id) produced := by
          rw [allocOrders_untouched day rest _ _ _ hnot, Map.update_same]
        rw [h1]
        have h2 : ((rest.map fun b => rem b.id -
              (allocOrders day rest (produced - min (rem o.id) produced)
                (Map.update rem o.id (rem o.id - min (rem o.id) produced))).1 b.id)).sum
            = ((rest.map fun b =>
              Map.update rem o.id (rem o.id - min (rem o.id) produced) b.id -
              (allocOrders day rest (produced - min (rem o.id) produced)
                (Map.update rem o.id (rem o.id - min (rem o.id) produced))).1 b.id)).sum := by
          refine congrArg List.sum (List.map_congr_left ?_)
          intro b hb
          rw [hrem1 b hb]
        rw [h2, ih htail]
        ring
    · split
      · simp
      · rename_i havail hneed htake hprod
        exfalso
        omega

/-! ## Facts about the per-product order lists -/

theorem mem_prodOrdersFor (cfg : Config) (orders : List Order) (q : Int)
    (os : List Order) (h : prodOrdersFor cfg orders q = some os) :
    ∀ o ∈ os, o ∈ orders ∧ o.product = q := by
  intro o ho
  rcases Option.map_eq_some'.mp h with ⟨pr, hpr, hos⟩
  subst hos
  have hmem := (sortOrders_perm _ _).mem_iff.mp ho
  rcases List.mem_filter.mp hmem with ⟨h1, h2⟩
  exact ⟨h1, of_decide_eq_true h2⟩

theorem prodOrdersFor_id_not_mem (cfg : Config) (orders : List Order)
    (hids : orders.Pairwise (fun a b => a.id ≠ b.id))
    (o : Order) (ho : o ∈ orders) (q : Int) (hq : q ≠ o.product)
    (os : List Order) (h : prodOrdersFor cfg orders q = some os) :
    o.id ∉ os.map Order.id := by
  intro hc
  rcases List.mem_map.mp hc with ⟨b, hb, hbid⟩
  rcases mem_prodOrdersFor cfg orders q os h b hb with ⟨hbo, hbp⟩
  have hbne : b ≠ o := by
    intro he
    subst he
    exact hq hbp.symm
  exact (hids.forall (fun {a b} hab => Ne.symm hab) hbo ho hbne) hbid

theorem prodOrdersFor_pairwise (cfg : Config) (orders : List Order)
    (hids : orders.Pairwise (fun a b => a.id ≠ b.id)) (q : Int)
    (os : List Order) (h : prodOrdersFor cfg orders q = some os) :
    os.Pairwise (fun a b => a.id ≠ b.id) := by
  rcases Option.map_eq_some'.mp h with ⟨pr, hpr, hos⟩
  subst hos
  refine ((sortOrders_perm _ _).pairwise_iff (fun {a b} hab => Ne.symm hab)).mpr ?_
  exact List.Pairwise.sublist (List.filter_sublist _) hids

/-! ## Facts about the per-slot product loop -/

theorem allocSlot_rem_nonneg (day : Int) (prodOrds : Int → Option (List Order)) :
    ∀ (pcs : List (Int × Int)) (rem rem2 : Map),
      allocSlot day prodOrds pcs rem = some rem2 →
      (∀ id, 0 ≤ rem id) → ∀ id, 0 ≤ rem2 id := by
  intro pcs
  induction pcs with
  | nil =>
    intro rem rem2 h hrem
    simp only [allocSlot, Option.some.injEq] at h
    subst h
    exact hrem
  | cons e rest ih =>
    intro rem rem2 h hrem
    rcases e with ⟨p, produced⟩
    simp only [allocSlot] at h
    split at h
    · exact ih _ _ h hrem
    · rcases hos : prodOrds p with _ | os
      · rw [hos] at h
        exact absurd h (by simp)
      · rw [hos] at h
        simp only [Option.some_bind] at h
        exact ih _ _ h (allocOrders_rem_nonneg day os _ _ hrem)

theorem allocSlot_untouched (day : Int) (prodOrds : Int → Option (List Order)) :
    ∀ (pcs : List (Int × Int)) (rem rem2 : Map) (id : String),
      allocSlot day prodOrds pcs rem = some rem2 →
      (∀ e ∈ pcs, ∀ os, prodOrds e.1 = some os → id ∉ os.map Order.id) →
      rem2 id = rem id := by
  intro pcs
  induction pcs with
  | nil =>
    intro rem rem2 id h _
    simp only [allocSlot, Option.some.injEq] at h
    subst h
    rfl
  | cons e rest ih =>
    intro rem rem2 id h hnot
    rcases e with ⟨p, produced⟩
    simp only [allocSlot] at h
    split at h
    · exact ih _ _ _ h (fun e he => hnot e (List.mem_cons_of_mem _ he))
    · rcases hos : prodOrds p with _ | os
      · rw [hos] at h
        exact absurd h (by simp)
      · rw [hos] at h
        simp only [Option.some_bind] at h
        rw [ih _ _ _ h (fun e he => hnot e (List.mem_cons_of_mem _ he))]
        exact allocOrders_untouched day os _ _ _
          (hnot (p, produced) (List.mem_cons_self _ _) os hos)

/-! ## Facts about the produced-by-product dict -/

theorem addProduced_lookup (pid cap p : Int) :
    ∀ l : List (Int × Int),
      pbpLookup (addProduced l pid cap) p
        = pbpLookup l p + (if pid = p then cap else 0) := by
  intro l
  induction l with
  | nil =>
    simp only [addProduced, pbpLookup]
    omega
  | cons e rest ih =>
    rcases e with ⟨q, c⟩
    simp only [addProduced]
    by_cases hq : q = pid
    · subst hq
      simp only [if_pos rfl, pbpLookup]
      by_cases hp2 : q = p
      · simp only [if_pos hp2, hp2]
        simp
      · simp only [if_neg hp2]
        omega
    · simp only [if_neg hq, pbpLookup]
      by_cases hp2 : q = p
      · have hpidp : ¬pid = p := fun he => hq (hp2.trans he.symm)
        simp only [if_pos hp2, if_neg hpidp]
        omega
      · simp only [if_neg hp2, ih]

theorem addProduced_key_mem (pid cap : Int) :
    ∀ (l : List (Int × Int)) (e : Int × Int), e ∈ addProduced l pid cap →
      e.1 ∈ l.map Prod.fst ∨ e.1 = pid := by
  intro l
  induction l with
  | nil =>
    intro e he
    simp only [addProduced, List.mem_singleton] at he
    subst he
    exact Or.inr rfl
  | cons x rest ih =>
    rcases x with ⟨q, c⟩
    intro e he
    simp only [addProduced] at he
    by_cases hq : q = pid
    · rw [if_pos hq] at he
      rcases List.mem_cons.mp he with rfl | hmem
      · exact Or.inl (by simp)
      · exact Or.inl (by
          simp only [List.map_cons, List.mem_cons]
          exact Or.inr (List.mem_map_of_mem _ hmem))
    · rw [if_neg hq] at he
      rcases List.mem_cons.mp he with rfl | hmem
      · exact Or.inl (by simp)
      · rcases ih e hmem with hk | hk
        · exact Or.inl (by simp only [List.map_cons, List.mem_cons]; exact Or.inr hk)
        · exact Or.inr hk

theorem addProduced_pairwise (pid cap : Int) :
    ∀ l : List (Int × Int), l.Pairwise (fun a b => a.1 ≠ b.1) →
      (addProduced l pid cap).Pairwise (fun a b => a.1 ≠ b.1) := by
  intro l
  induction l with
  | nil => intro _; simp [addProduced]
  | cons x rest ih =>
    rcases x with ⟨q, c⟩
    intro h
    rcases List.pairwise_cons.mp h with ⟨hhead, htail⟩
    simp only [addProduced]
    by_cases hq : q = pid
    · rw [if_pos hq]
      exact List.pairwise_cons.mpr ⟨fun b hb => hhead b hb, htail⟩
    · rw [if_neg hq]
      refine List.pairwise_cons.mpr ⟨?_, ih htail⟩
      intro b hb
      rcases addProduced_key_mem pid cap rest b hb with hk | hk
      · rcases List.mem_map.mp hk with ⟨a, ha, hak⟩
        rw [← hak]
        exact hhead a ha
      · rw [hk]
        exact hq

theorem addProduced_values (pid cap : Int) (hcap : 0 ≤ cap) :
    ∀ l : List (Int × Int), (∀ e ∈ l, 0 ≤ e.2) →
      ∀ e ∈ addProduced l pid cap, 0 ≤ e.2 := by
  intro l
  induction l with
  | nil =>
    intro _ e he
    simp only [addProduced, List.mem_singleton] at he
    subst he
    exact hcap
  | cons x rest ih =>
    rcases x with ⟨q, c⟩
    intro h e he
    simp only [addProduced] at he
    by_cases hq : q = pid
    · rw [if_pos hq] at he
      rcases List.mem_cons.mp he with rfl | hmem
      · have := h (q, c) (List.mem_cons_self _ _)
        simp only at this ⊢
        omega
      · exact h e (List.mem_cons_of_mem _ hmem)
    · rw [if_neg hq] at he
      rcases List.mem_cons.mp he with rfl | hmem
      · exact h _ (List.mem_cons_self _ _)
      · exact ih (fun x hx => h x (List.mem_cons_of_mem _ hx)) e hmem

theorem product_by_id_mem (cfg : Config) (pid : Int) (pr : Product)
    (h : cfg.product_by_id pid = some pr) : pr ∈ cfg.products :=
  List.mem_of_find?_eq_some h

theorem producedByProduct_lookup (cfg : Config) (p : Int) (pr : Product)
    (hp : cfg.product_by_id p = some pr) :
    ∀ (lines : List (Option Int)) (acc pbp : List (Int × Int)),
      producedByProduct cfg lines acc = some pbp →
      pbpLookup pbp p = pbpLookup acc p
        + (lines.countP (fun c => decide (c = some p)) : Int) * pr.slot_capacity := by
  intro lines
  induction lines with
  | nil =>
    intro acc pbp h
    simp only [producedByProduct, Option.some.injEq] at h
    subst h
    simp
  | cons choice rest ih =>
    intro acc pbp h
    rcases choice with _ | pid
    · simp only [producedByProduct] at h
      have hc : List.countP (fun c => decide (c = some p)) ((none : Option Int) :: rest)
          = List.countP (fun c => decide (c = some p)) rest := by
        simp [List.countP_cons]
      rw [ih acc pbp h, hc]
    · simp only [producedByProduct] at h
      rcases hpid : cfg.product_by_id pid with _ | prq
      · rw [hpid] at h
        exact absurd h (by simp)
      · rw [hpid] at h
        simp only [Option.some_bind] at h
        rw [ih _ pbp h, addProduced_lookup]
        by_cases hpp : pid = p
        · subst hpp
          rw [hpid] at hp
          have hprq : prq = pr := Option.some.inj hp
          subst hprq
          have hc : List.countP (fun c => decide (c = some pid)) (some pid :: rest)
              = List.countP (fun c => decide (c = some pid)) rest + 1 := by
            simp [List.countP_cons]
          rw [hc, if_pos rfl]
          push_cast
          ring
        · have hc : List.countP (fun c => decide (c = some p)) (some pid :: rest)
              = List.countP (fun c => decide (c = some p)) rest := by
            simp [List.countP_cons, hpp]
          rw [hc, if_neg hpp]
          ring

theorem producedByProduct_pairwise (cfg : Config) :
    ∀ (lines : List (Option Int)) (acc pbp : List (Int × Int)),
      producedByProduct cfg lines acc = some pbp →
      acc.Pairwise (fun a b => a.1 ≠ b.1) → pbp.Pairwise (fun a b => a.1 ≠ b.1) := by
  intro lines
  induction lines with
  | nil =>
    intro acc pbp h hacc
    simp only [producedByProduct, Option.some.injEq] at h
    subst h
    exact hacc
  | cons choice rest ih =>
    intro acc pbp h hacc
    rcases choice with _ | pid
    · simp only [producedByProduct] at h
      exact ih acc pbp h hacc
    · simp only [producedByProduct] at h
      rcases hpid : cfg.product_by_id pid with _ | prq
      · rw [hpid] at h
        exact absurd h (by simp)
      · rw [hpid] at h
        simp only [Option.some_bind] at h
        exact ih _ pbp h (addProduced_pairwise _ _ _ hacc)

theorem producedByProduct_values (cfg : Config)
    (hcap : ∀ q ∈ cfg.products, 0 ≤ q.slot_capacity) :
    ∀ (lines : List (Option Int)) (acc pbp : List (Int × Int)),
      producedByProduct cfg lines acc = some pbp →
      (∀ e ∈ acc, 0 ≤ e.2) → ∀ e ∈ pbp, 0 ≤ e.2 := by
  intro lines
  induction lines with
  | nil =>
    intro acc pbp h hacc
    simp only [producedByProduct, Option.some.injEq] at h
    subst h
    exact hacc
  | cons choice rest ih =>
    intro acc pbp h hacc
    rcases choice with _ | pid
    · simp only [producedByProduct] at h
      exact ih acc pbp h hacc
    · simp only [producedByProduct] at h
      rcases hpid : cfg.product_by_id pid with _ | prq
      · rw [hpid] at h
        exact absurd h (by simp)
      · rw [hpid] at h
        simp only [Option.some_bind] at h
        refine ih _ pbp h
          (addProduced_values _ _ (hcap prq (product_by_id_mem cfg pid prq hpid)) _ hacc)

/-! ## The per-slot capacity bound -/

theorem allocSlot_sum_bound (cfg : Config) (orders : List Order)
    (hids : orders.Pairwise (fun a b => a.id ≠ b.id)) (day : Int) (p : Int) :
    ∀ (pcs : List (Int × Int)) (rem rem2 : Map),
      allocSlot day (prodOrdersFor cfg orders) pcs rem = some rem2 →
      pcs.Pairwise (fun a b => a.1 ≠ b.1) →
      (∀ e ∈ pcs, 0 ≤ e.2) →
      ((orders.filter (fun o => decide (o.product = p))).map
          (fun o => rem o.id - rem2 o.id)).sum ≤ pbpLookup pcs p := by
  intro pcs
  induction pcs with
  | nil =>
    intro rem rem2 h _ _
    simp only [allocSlot, Option.some.injEq] at h
    subst h
    simp [pbpLookup]
  | cons e rest ih =>
    intro rem rem2 h hpair hvals
    rcases e with ⟨q, c⟩
    rcases List.pairwise_cons.mp hpair with ⟨hhead, htail⟩
    simp only [allocSlot] at h
    split at h
    · -- capacity `c ≤ 0`: the product loop skips this entry
      by_cases hqp : q = p
      · subst hqp
        have huntouched : ∀ o ∈ orders, o.product = q → rem2 o.id = rem o.id := by
          intro o ho hop
          refine allocSlot_untouched day _ rest rem rem2 o.id h ?_
          intro e he os hos
          refine prodOrdersFor_id_not_mem cfg orders hids o ho e.1 ?_ os hos
          rw [hop]
          exact fun he2 => (hhead e he) he2.symm
        have hsum : ((orders.filter (fun o => decide (o.product = q))).map
            (fun o => rem o.id - rem2 o.id)).sum = 0 := by
          refine List.sum_eq_zero ?_
          intro x hx
          rcases List.mem_map.mp hx with ⟨o, ho, hox⟩
          rcases List.mem_filter.mp ho with ⟨ho1, ho2⟩
          rw [huntouched o ho1 (of_decide_eq_true ho2)] at hox
          omega
        rw [hsum]
        have hlk : pbpLookup ((q, c) :: rest) q = c := by simp [pbpLookup]
        rw [hlk]
        exact hvals (q, c) (List.mem_cons_self _ _)
      · have := ih rem rem2 h htail (fun e he => hvals e (List.mem_cons_of_mem _ he))
        simpa [pbpLookup, hqp] using this
    · -- capacity `0 < c`: allocate it, then process the remaining products
      rcases hos : prodOrdersFor cfg orders q with _ | os
      · rw [hos] at h
        exact absurd h (by simp)
      · rw [hos] at h
        simp only [Option.some_bind] at h
        have hosids : os.Pairwise (fun a b => a.id ≠ b.id) :=
          prodOrdersFor_pairwise cfg orders hids q os hos
        by_cases hqp : q = p
        · subst hqp
          have huntouched : ∀ o ∈ orders, o.product = q →
              rem2 o.id = (allocOrders day os c rem).1 o.id := by
            intro o ho hop
            refine allocSlot_untouched day _ rest _ rem2 o.id h ?_
            intro e he os2 hos2
            refine prodOrdersFor_id_not_mem cfg orders hids o ho e.1 ?_ os2 hos2
            rw [hop]
            exact fun he2 => (hhead e he) he2.symm
          have hstep1 : ((orders.filter (fun o => decide (o.product = q))).map
                (fun o => rem o.id - rem2 o.id)).sum
              = ((orders.filter (fun o => decide (o.product = q))).map
                (fun o => rem o.id - (allocOrders day os c rem).1 o.id)).sum := by
            refine congrArg List.sum (List.map_congr_left ?_)
            intro o ho
            rcases List.mem_filter.mp ho with ⟨ho1, ho2⟩
            rw [huntouched o ho1 (of_decide_eq_true ho2)]
          rcases Option.map_eq_some'.mp hos with ⟨pr, hpr, hos2⟩
          have hperm : List.Perm
              (os.map (fun o => rem o.id - (allocOrders day os c rem).1 o.id))
              ((orders.filter (fun o => decide (o.product = q))).map
                (fun o => rem o.id - (allocOrders day os c rem).1 o.id)) := by
            rw [← hos2]
            exact List.Perm.map _ (sortOrders_perm _ _)
          have hsum2 := allocOrders_sum_consumed day os hosids c rem
          have hnn : 0 ≤ (allocOrders day os c rem).2 := by
            refine allocOrders_produced_nonneg day os c rem ?_
            omega
          have hlk : pbpLookup ((q, c) :: rest) q = c := by simp [pbpLookup]
          rw [hstep1, ← hperm.sum_eq, hsum2, hlk]
          omega
        · have hstep1 : ((orders.filter (fun o => decide (o.product = p))).map
                (fun o => rem o.id - rem2 o.id)).sum
              = ((orders.filter (fun o => decide (o.product = p))).map
                (fun o => (allocOrders day os c rem).1 o.id - rem2 o.id)).sum := by
            refine congrArg List.sum (List.map_congr_left ?_)
            intro o ho
            rcases List.mem_filter.mp ho with ⟨ho1, ho2⟩
            have : o.id ∉ os.map Order.id := by
              refine prodOrdersFor_id_not_mem cfg orders hids o ho1 q ?_ os hos
              rw [of_decide_eq_true ho2]
              exact hqp
            rw [allocOrders_untouched day os _ _ _ this]
          rw [hstep1]
          have := ih _ rem2 h htail (fun e he => hvals e (List.mem_cons_of_mem _ he))
          simpa [pbpLookup, hqp] using this

/-! ## Remaining-map invariants through the whole horizon -/

theorem decodeSlots_rem_nonneg (cfg : Config) (prodOrds : Int → Option (List Order)) :
    ∀ (slots : List (List (Option Int))) (sIdx : Nat) (rem remF : Map),
      decodeSlots cfg prodOrds slots sIdx rem = some remF →
      (∀ id, 0 ≤ rem id) → ∀ id, 0 ≤ remF id := by
  intro slots
  induction slots with
  | nil =>
    intro sIdx rem remF h hrem
    simp only [decodeSlots, Option.some.injEq] at h
    subst h
    exact hrem
  | cons lines rest ih =>
    intro sIdx rem remF h hrem
    simp only [decodeSlots] at h
    rcases hpbp : producedByProduct cfg lines [] with _ | pbp
    · rw [hpbp] at h
      exact absurd h (by simp)
    · rw [hpbp] at h
      simp only [Option.some_bind] at h
      rcases hslot : allocSlot ((day_of_slot sIdx : Nat) : Int) prodOrds pbp rem with _ | rem2
      · rw [hslot] at h
        exact absurd h (by simp)
      · rw [hslot] at h
        simp only [Option.some_bind] at h
        exact ih _ _ _ h (allocSlot_rem_nonneg _ _ _ _ _ hslot hrem)

theorem foldl_update_nonneg (f : Order → Int) (orders : List Order)
    (hf : ∀ o ∈ orders, 0 ≤ f o) :
    ∀ base : Map, (∀ id, 0 ≤ base id) →
      ∀ id, 0 ≤ (orders.foldl (fun m o => Map.update m o.id (f o)) base) id := by
  induction orders with
  | nil => intro base hbase id; exact hbase id
  | cons a rest ih =>
    intro base hbase id
    simp only [List.foldl_cons]
    refine ih (fun o ho => hf o (List.mem_cons_of_mem _ ho)) _ ?_ id
    intro j
    by_cases hj : j = a.id
    · subst hj
      rw [Map.update_same]
      exact hf a (List.mem_cons_self _ _)
    · rw [Map.update_other _ _ _ _ hj]
      exact hbase j

theorem initRemaining_nonneg (orders : List Order)
    (hqty : ∀ o ∈ orders, 0 ≤ o.qty) :
    ∀ id, 0 ≤ initRemaining orders id :=
  foldl_update_nonneg (fun o => o.qty) orders hqty (fun _ => 0) (fun _ => le_refl 0)

theorem revdel_snd_eq (dt : Map) (orders : List Order) :
    ∀ acc : ℚ × Map,
      (orders.foldl
          (fun acc o =>
            (acc.1 + ((min (dt o.id) o.qty : Int) : ℚ) * o.unit_price,
             Map.update acc.2 o.id (min (dt o.id) o.qty)))
          acc).2
        = orders.foldl (fun m o => Map.update m o.id (min (dt o.id) o.qty)) acc.2 := by
  induction orders with
  | nil => intro acc; rfl
  | cons a rest ih =>
    intro acc
    simp only [List.foldl_cons]
    exact ih _

theorem evaluate_delivered_le (sched : Schedule) (cfg : Config)
    (orders : List Order) (hids : orders.Pairwise (fun a b => a.id ≠ b.id))
    (r : EvaluationResult)
    (hr : evaluate_schedule sched cfg orders = some r) :
    ∀ o ∈ orders, r.delivered_per_order o.id ≤ o.qty := by
  intro o ho
  simp only [evaluate_schedule] at hr
  rcases hd : decode_assignments sched cfg orders with _ | dt
  · rw [hd] at hr; exact absurd hr (by simp)
  rw [hd] at hr
  simp only [Option.some_bind] at hr
  rcases hdp : duePassSlots cfg orders sched 0 (fun _ => 0) (initRemaining orders)
    with _ | dr
  · rw [hdp] at hr; exact absurd hr (by simp)
  rw [hdp] at hr
  simp only [Option.some_bind] at hr
  rcases hpca : prodCostActive cfg sched 0 0 0 with _ | pca
  · rw [hpca] at hr; exact absurd hr (by simp)
  rw [hpca] at hr
  simp only [Option.some_bind] at hr
  rcases hw : wageCost cfg sched 0 0 with _ | wage
  · rw [hw] at hr; exact absurd hr (by simp)
  rw [hw] at hr
  simp only [Option.map_some', Option.some.injEq] at hr
  subst hr
  dsimp only
  rw [revdel_snd_eq]
  rw [foldl_update_eq (fun o => min (dt o.id) o.qty) orders hids o ho]
  exact min_le_right _ _

/-- C5: conservation of quantities.  (a) For every order the delivered
units reported by `decode_assignments` are at most the order's quantity;
(b) for every order the delivered units reported in
`EvaluationResult.delivered_per_order` by `evaluate_schedule` (the
min-capped reporting of `fitness.py`) are at most the order's quantity;
(c) for every slot of the schedule and every product, the total units
allocated to orders of that product in that slot are at most the
produced capacity of that product in the slot (number of active lines
producing it times its slot capacity).  Well-formedness: order ids are
distinct, quantities are nonnegative, and slot capacities are
nonnegative. -/
theorem C5_conservation (sched : Schedule) (cfg : Config) (orders : List Order)
    (hids : orders.Pairwise (fun a b => a.id ≠ b.id))
    (hqty : ∀ o ∈ orders, 0 ≤ o.qty)
    (hcap : ∀ q ∈ cfg.products, 0 ≤ q.slot_capacity) :
    (∀ d, decode_assignments sched cfg orders = some d →
      ∀ o ∈ orders, d o.id ≤ o.qty) ∧
    (∀ r, evaluate_schedule sched cfg orders = some r →
      ∀ o ∈ orders, r.delivered_per_order o.id ≤ o.qty) ∧
    (∀ lines ∈ sched, ∀ (day : Int) (pbp : List (Int × Int)) (rem rem2 : Map)
        (p : Int) (pr : Product),
      producedByProduct cfg lines [] = some pbp →
      allocSlot day (prodOrdersFor cfg orders) pbp rem = some rem2 →
      cfg.product_by_id p = some pr →
      ((orders.filter (fun o => decide (o.product = p))).map
          (fun o => rem o.id - rem2 o.id)).sum
        ≤ (lines.countP (fun c => decide (c = some p)) : Int) * pr.slot_capacity) := by
  refine ⟨?_, ?_, ?_⟩
  · intro d hd o ho
    rcases Option.map_eq_some'.mp hd with ⟨remF, hremF, hdd⟩
    subst hdd
    have hdo : (orders.foldl (fun m o => Map.update m o.id (o.qty - remF o.id))
        (fun _ => 0)) o.id = o.qty - remF o.id :=
      foldl_update_eq (fun o => o.qty - remF o.id) orders hids o ho _
    rw [hdo]
    have h0 : 0 ≤ remF o.id :=
      decodeSlots_rem_nonneg cfg _ sched 0 _ remF hremF (initRemaining_nonneg orders hqty) o.id
    omega
  · intro r hr
    exact evaluate_delivered_le sched cfg orders hids r hr
  · intro lines _ day pbp rem rem2 p pr hpbp hslot hp
    have hb := allocSlot_sum_bound cfg orders hids day p pbp rem rem2 hslot
      (producedByProduct_pairwise cfg lines [] pbp hpbp List.Pairwise.nil)
      (producedByProduct_values cfg hcap lines [] pbp hpbp (by intro e he; cases he))
    have hl := producedByProduct_lookup cfg p pr hp lines [] pbp hpbp
    simp only [pbpLookup] at hl
    omega

/-- Witness for C5 at the concrete single-order scenario. -/
theorem C5_conservation_witness :
    (∀ d, decode_assignments schedC4 cfgC4 [orderC4] = some d →
      ∀ o ∈ [orderC4], d o.id ≤ o.qty) ∧
    (∀ r, evaluate_schedule schedC4 cfgC4 [orderC4] = some r →
      ∀ o ∈ [orderC4], r.delivered_per_order o.id ≤ o.qty) ∧
    (∀ lines ∈ schedC4, ∀ (day : Int) (pbp : List (Int × Int)) (rem rem2 : Map)
        (p : Int) (pr : Product),
      producedByProduct cfgC4 lines [] = some pbp →
      allocSlot day (prodOrdersFor cfgC4 [orderC4]) pbp rem = some rem2 →
      cfgC4.product_by_id p = some pr →
      (([orderC4].filter (fun o => decide (o.product = p))).map
          (fun o => rem o.id - rem2 o.id)).sum
        ≤ (lines.countP (fun c => decide (c = some p)) : Int) * pr.slot_capacity) :=
  C5_conservation schedC4 cfgC4 [orderC4]
    (by simp)
    (by intro o ho; rcases List.mem_singleton.mp ho with rfl; exact of_decide_eq_true rfl)
    (by
      intro q hq
      rcases List.mem_singleton.mp hq with rfl
      exact of_decide_eq_true (by with_unfolding_all rfl))

/-! ## Monotonicity of the greedy allocation in the available capacity -/

theorem allocOrders_cons (day : Int) (o : Order) (rest : List Order)
    (produced : Int) (rem : Map) :
    allocOrders day (o :: rest) produced rem =
      if day < o.available_from_day then allocOrders day rest produced rem
      else if rem o.id ≤ 0 then allocOrders day rest produced rem
      else if (if 0 < min (rem o.id) produced then produced - min (rem o.id) produced
          else produced) ≤ 0 then
        ((if 0 < min (rem o.id) produced then
            Map.update rem o.id (rem o.id - min (rem o.id) produced) else rem),
         (if 0 < min (rem o.id) produced then produced - min (rem o.id) produced
          else produced))
      else allocOrders day rest
        (if 0 < min (rem o.id) produced then produced - min (rem o.id) produced else produced)
        (if 0 < min (rem o.id) produced then
          Map.update rem o.id (rem o.id - min (rem o.id) produced) else rem) := by
  rfl

theorem allocOrders_agree (day : Int) :
    ∀ (os : List Order), os.Pairwise (fun a b => a.id ≠ b.id) →
      ∀ (produced : Int) (rem1 rem2 : Map),
        (∀ id ∈ os.map Order.id, rem1 id = rem2 id) →
        (∀ id ∈ os.map Order.id,
          (allocOrders day os produced rem1).1 id = (allocOrders day os produced rem2).1 id) ∧
        (allocOrders day os produced rem1).2 = (allocOrders day os produced rem2).2 := by
  intro os
  induction os with
  | nil => intro _ produced rem1 rem2 _; exact ⟨fun id h => absurd h (by simp), rfl⟩
  | cons o rest ih =>
    intro hpair produced rem1 rem2 hagree
    rcases List.pairwise_cons.mp hpair with ⟨hhead, htail⟩
    have hnot : o.id ∉ rest.map Order.id := by
      intro hc
      rcases List.mem_map.mp hc with ⟨b, hb, hbid⟩
      exact hhead b hb hbid.symm
    have hoid : rem1 o.id = rem2 o.id := hagree o.id (by simp)
    have hrest : ∀ id ∈ rest.map Order.id, rem1 id = rem2 id := by
      intro id hid
      refine hagree id ?_
      rw [List.map_cons]
      exact List.mem_cons_of_mem _ hid
    have hmemsplit : ∀ id, id ∈ (o :: rest).map Order.id →
        id = o.id ∨ id ∈ rest.map Order.id := by
      intro id hid
      rw [List.map_cons] at hid
      exact List.mem_cons.mp hid
    have hskip : (∀ id ∈ (o :: rest).map Order.id,
          (allocOrders day rest produced rem1).1 id
            = (allocOrders day rest produced rem2).1 id) ∧
        (allocOrders day rest produced rem1).2
          = (allocOrders day rest produced rem2).2 := by
      rcases ih htail produced rem1 rem2 hrest with ⟨ha, hb⟩
      refine ⟨?_, hb⟩
      intro id hid
      rcases hmemsplit id hid with rfl | hmem
      · rw [allocOrders_untouched day rest _ _ _ hnot,
          allocOrders_untouched day rest _ _ _ hnot, hoid]
      · exact ha id hmem
    rw [allocOrders_cons, allocOrders_cons, hoid]
    by_cases hA : day < o.available_from_day
    · simp only [if_pos hA]
      exact hskip
    simp only [if_neg hA]
    by_cases hN : rem2 o.id ≤ 0
    · simp only [if_pos hN]
      exact hskip
    simp only [if_neg hN]
    by_cases hT : 0 < min (rem2 o.id) produced
    · simp only [if_pos hT]
      by_cases hB : produced - min (rem2 o.id) produced ≤ 0
      · simp only [if_pos hB]
        refine ⟨?_, trivial⟩
        intro id hid
        by_cases hido : id = o.id
        · subst hido
          rw [Map.update_same, Map.update_same]
        · rw [Map.update_other _ _ _ _ hido, Map.update_other _ _ _ _ hido]
          rcases hmemsplit id hid with heq | hmem
          · exact absurd heq hido
          · exact hrest id hmem
      · simp only [if_neg hB]
        have hrest2 : ∀ id ∈ rest.map Order.id,
            Map.update rem1 o.id (rem2 o.id - min (rem2 o.id) produced) id
              = Map.update rem2 o.id (rem2 o.id - min (rem2 o.id) produced) id := by
          intro id hid
          have hido : id ≠ o.id := fun he => hnot (he ▸ hid)
          rw [Map.update_other _ _ _ _ hido, Map.update_other _ _ _ _ hido]
          exact hrest id hid
        rcases ih htail _ _ _ hrest2 with ⟨ha, hb⟩
        refine ⟨?_, hb⟩
        intro id hid
        rcases hmemsplit id hid with rfl | hmem
        · rw [allocOrders_untouched day rest _ _ _ hnot,
            allocOrders_untouched day rest _ _ _ hnot,
            Map.update_same, Map.update_same]
        · exact ha id hmem
    · simp only [if_neg hT]
      by_cases hB : produced ≤ 0
      · simp only [if_pos hB]
        refine ⟨?_, trivial⟩
        intro id hid
        rcases hmemsplit id hid with rfl | hmem
        · exact hoid
        · exact hrest id hmem
      · simp only [if_neg hB]
        exact hskip

theorem allocOrders_mono (day : Int) :
    ∀ (os : List Order), os.Pairwise (fun a b => a.id ≠ b.id) →
      ∀ (pr1 pr2 : Int) (rem1 rem2 : Map),
        (∀ id ∈ os.map Order.id, rem1 id ≤ rem2 id) →
        pr2 ≤ pr1 → 0 ≤ pr2 →
        (∀ id ∈ os.map Order.id,
          (allocOrders day os pr1 rem1).1 id ≤ (allocOrders day os pr2 rem2).1 id) ∧
        (allocOrders day os pr2 rem2).2 ≤ (allocOrders day os pr1 rem1).2 := by
  intro os
  induction os with
  | nil =>
    intro _ pr1 pr2 rem1 rem2 _ hpr _
    exact ⟨fun id h => absurd h (by simp), hpr⟩
  | cons o rest ih =>
    intro hpair pr1 pr2 rem1 rem2 hle hpr hpr2
    rcases List.pairwise_cons.mp hpair with ⟨hhead, htail⟩
    have hnot : o.id ∉ rest.map Order.id := by
      intro hc
      rcases List.mem_map.mp hc with ⟨b, hb, hbid⟩
      exact hhead b hb hbid.symm
    have hle_o : rem1 o.id ≤ rem2 o.id := hle o.id (by simp)
    have hrest : ∀ id ∈ rest.map Order.id, rem1 id ≤ rem2 id := by
      intro id hid
      refine hle id ?_
      rw [List.map_cons]
      exact List.mem_cons_of_mem _ hid
    have hmemsplit : ∀ id, id ∈ (o :: rest).map Order.id →
        id = o.id ∨ id ∈ rest.map Order.id := by
      intro id hid
      rw [List.map_cons] at hid
      exact List.mem_cons.mp hid
    have hskip : (∀ id ∈ (o :: rest).map Order.id,
          (allocOrders day rest pr1 rem1).1 id ≤ (allocOrders day rest pr2 rem2).1 id) ∧
        (allocOrders day rest pr2 rem2).2 ≤ (allocOrders day rest pr1 rem1).2 := by
      rcases ih htail pr1 pr2 rem1 rem2 hrest hpr hpr2 with ⟨ha, hb⟩
      refine ⟨?_, hb⟩
      intro id hid
      rcases hmemsplit id hid with rfl | hmem
      · rw [allocOrders_untouched day rest _ _ _ hnot,
          allocOrders_untouched day rest _ _ _ hnot]
        exact hle_o
      · exact ha id hmem
    rw [allocOrders_cons, allocOrders_cons]
    by_cases hA : day < o.available_from_day
    · simp only [if_pos hA]
      exact hskip
    simp only [if_neg hA]
    by_cases hN1 : rem1 o.id ≤ 0
    · simp only [if_pos hN1]
      by_cases hN2 : rem2 o.id ≤ 0
      · simp only [if_pos hN2]
        exact hskip
      · simp only [if_neg hN2]
        by_cases hT2 : 0 < min (rem2 o.id) pr2
        · simp only [if_pos hT2]
          by_cases hB2 : pr2 - min (rem2 o.id) pr2 ≤ 0
          · simp only [if_pos hB2]
            constructor
            · intro id hid
              rcases hmemsplit id hid with rfl | hmem
              · rw [allocOrders_untouched day rest _ _ _ hnot, Map.update_same]
                omega
              · have hido : id ≠ o.id := fun he => hnot (he ▸ hmem)
                rw [Map.update_other _ _ _ _ hido]
                exact le_trans (allocOrders_rem_le day rest pr1 rem1 id) (hrest id hmem)
            · have := allocOrders_produced_nonneg day rest pr1 rem1 (by omega)
              omega
          · simp only [if_neg hB2]
            have hrest2 : ∀ id ∈ rest.map Order.id,
                rem1 id ≤ Map.update rem2 o.id (rem2 o.id - min (rem2 o.id) pr2) id := by
              intro id hid
              have hido : id ≠ o.id := fun he => hnot (he ▸ hid)
              rw [Map.update_other _ _ _ _ hido]
              exact hrest id hid
            rcases ih htail pr1 (pr2 - min (rem2 o.id) pr2) rem1 _ hrest2
              (by omega) (by omega) with ⟨ha, hb⟩
            refine ⟨?_, hb⟩
            intro id hid
            rcases hmemsplit id hid with rfl | hmem
            · rw [allocOrders_untouched day rest _ _ _ hnot,
                allocOrders_untouched day rest _ _ _ hnot, Map.update_same]
              omega
            · exact ha id hmem
        · simp only [if_neg hT2]
          by_cases hB2 : pr2 ≤ 0
          · simp only [if_pos hB2]
            constructor
            · intro id hid
              rcases hmemsplit id hid with rfl | hmem
              · rw [allocOrders_untouched day rest _ _ _ hnot]
                omega
              · exact le_trans (allocOrders_rem_le day rest pr1 rem1 id) (hrest id hmem)
            · have := allocOrders_produced_nonneg day rest pr1 rem1 (by omega)
              omega
          · exfalso
            omega
    · simp only [if_neg hN1]
      have hN2 : ¬ rem2 o.id ≤ 0 := by omega
      simp only [if_neg hN2]
      by_cases hT1 : 0 < min (rem1 o.id) pr1
      · simp only [if_pos hT1]
        by_cases hT2 : 0 < min (rem2 o.id) pr2
        · simp only [if_pos hT2]
          by_cases hB1 : pr1 - min (rem1 o.id) pr1 ≤ 0
          · simp only [if_pos hB1]
            by_cases hB2 : pr2 - min (rem2 o.id) pr2 ≤ 0
            · simp only [if_pos hB2]
              constructor
              · intro id hid
                rcases hmemsplit id hid with rfl | hmem
                · rw [Map.update_same, Map.update_same]
                  omega
                · have hido : id ≠ o.id := fun he => hnot (he ▸ hmem)
                  rw [Map.update_other _ _ _ _ hido, Map.update_other _ _ _ _ hido]
                  exact hrest id hmem
              · omega
            · exfalso
              omega
          · simp only [if_neg hB1]
            by_cases hB2 : pr2 - min (rem2 o.id) pr2 ≤ 0
            · simp only [if_pos hB2]
              constructor
              · intro id hid
                rcases hmemsplit id hid with rfl | hmem
                · rw [allocOrders_untouched day rest _ _ _ hnot,
                    Map.update_same, Map.update_same]
                  omega
                · have hido : id ≠ o.id := fun he => hnot (he ▸ hmem)
                  rw [Map.update_other _ _ _ _ hido]
                  refine le_trans (allocOrders_rem_le day rest _ _ id) ?_
                  rw [Map.update_other _ _ _ _ hido]
                  exact hrest id hmem
              · have := allocOrders_produced_nonneg day rest
                  (pr1 - min (rem1 o.id) pr1)
                  (Map.update rem1 o.id (rem1 o.id - min (rem1 o.id) pr1)) (by omega)
                omega
            · simp only [if_neg hB2]
              have hrest2 : ∀ id ∈ rest.map Order.id,
                  Map.update rem1 o.id (rem1 o.id - min (rem1 o.id) pr1) id
                    ≤ Map.update rem2 o.id (rem2 o.id - min (rem2 o.id) pr2) id := by
                intro id hid
                have hido : id ≠ o.id := fun he => hnot (he ▸ hid)
                rw [Map.update_other _ _ _ _ hido, Map.update_other _ _ _ _ hido]
                exact hrest id hid
              rcases ih htail (pr1 - min (rem1 o.id) pr1) (pr2 - min (rem2 o.id) pr2) _ _ hrest2 (by omega) (by omega) with ⟨ha, hb⟩
              refine ⟨?_, hb⟩
              intro id hid
              rcases hmemsplit id hid with rfl | hmem
              · rw [allocOrders_untouched day rest _ _ _ hnot,
                  allocOrders_untouched day rest _ _ _ hnot,
                  Map.update_same, Map.update_same]
                omega
              · exact ha id hmem
        · simp only [if_neg hT2]
          by_cases hB2 : pr2 ≤ 0
          · simp only [if_pos hB2]
            by_cases hB1 : pr1 - min (rem1 o.id) pr1 ≤ 0
            · simp only [if_pos hB1]
              constructor
              · intro id hid
                rcases hmemsplit id hid with rfl | hmem
                · rw [Map.update_same]
                  omega
                · have hido : id ≠ o.id := fun he => hnot (he ▸ hmem)
                  rw [Map.update_other _ _ _ _ hido]
                  exact hrest id hmem
              · omega
            · simp only [if_neg hB1]
              constructor
              · intro id hid
                rcases hmemsplit id hid with rfl | hmem
                · rw [allocOrders_untouched day rest _ _ _ hnot, Map.update_same]
                  omega
                · refine le_trans (allocOrders_rem_le day rest _ _ id) ?_
                  have hido : id ≠ o.id := fun he => hnot (he ▸ hmem)
                  rw [Map.update_other _ _ _ _ hido]
                  exact hrest id hmem
              · have := allocOrders_produced_nonneg day rest
                  (pr1 - min (rem1 o.id) pr1)
                  (Map.update rem1 o.id (rem1 o.id - min (rem1 o.id) pr1)) (by omega)
                omega
          · exfalso
            omega
      · simp only [if_neg hT1]
        have hT2 : ¬ 0 < min (rem2 o.id) pr2 := by omega
        simp only [if_neg hT2]
        by_cases hB1 : pr1 ≤ 0
        · simp only [if_pos hB1]
          have hB2 : pr2 ≤ 0 := by omega
          simp only [if_pos hB2]
          constructor
          · intro id hid
            rcases hmemsplit id hid with rfl | hmem
            · exact hle_o
            · exact hrest id hmem
          · omega
        · exfalso
          omega

theorem pbpLookup_zero_of_not_key (q : Int) :
    ∀ pcs : List (Int × Int), (∀ e ∈ pcs, e.1 ≠ q) → pbpLookup pcs q = 0 := by
  intro pcs
  induction pcs with
  | nil => intro _; rfl
  | cons e rest ih =>
    intro h
    rcases e with ⟨q2, c⟩
    simp only [pbpLookup]
    rw [if_neg (h (q2, c) (List.mem_cons_self _ _))]
    exact ih (fun x hx => h x (List.mem_cons_of_mem _ hx))

theorem pbpLookup_nonneg (q : Int) :
    ∀ pcs : List (Int × Int), (∀ e ∈ pcs, 0 ≤ e.2) → 0 ≤ pbpLookup pcs q := by
  intro pcs
  induction pcs with
  | nil => intro _; exact le_refl 0
  | cons e rest ih =>
    intro h
    rcases e with ⟨q2, c⟩
    simp only [pbpLookup]
    split
    · exact h (q2, c) (List.mem_cons_self _ _)
    · exact ih (fun x hx => h x (List.mem_cons_of_mem _ hx))

theorem mem_prodOrdersFor_of (cfg : Config) (orders : List Order) (q : Int)
    (os : List Order) (h : prodOrdersFor cfg orders q = some os)
    (o : Order) (ho : o ∈ orders) (hop : o.product = q) : o ∈ os := by
  rcases Option.map_eq_some'.mp h with ⟨pr, hpr, hos⟩
  subst hos
  refine (sortOrders_perm _ _).mem_iff.mpr ?_
  exact List.mem_filter.mpr ⟨ho, by simp [hop]⟩

/-- How one slot's product loop acts on the remaining demand of each
product: for a dict with distinct keys the net effect on the orders of
product `q` is a single greedy allocation of `q`'s aggregated capacity,
independent of the other products in the slot. -/
theorem allocSlot_char (cfg : Config) (orders : List Order)
    (hids : orders.Pairwise (fun a b => a.id ≠ b.id)) (day : Int) :
    ∀ (pcs : List (Int × Int)) (rem rem2 : Map),
      allocSlot day (prodOrdersFor cfg orders) pcs rem = some rem2 →
      pcs.Pairwise (fun a b => a.1 ≠ b.1) →
      ∀ (q : Int) (os : List Order), prodOrdersFor cfg orders q = some os →
        ∀ o ∈ orders, o.product = q →
          rem2 o.id = (if 0 < pbpLookup pcs q
            then (allocOrders day os (pbpLookup pcs q) rem).1 o.id
            else rem o.id) := by
  intro pcs
  induction pcs with
  | nil =>
    intro rem rem2 h _ q os hos o ho hop
    simp only [allocSlot, Option.some.injEq] at h
    subst h
    simp [pbpLookup]
  | cons e rest ih =>
    intro rem rem2 h hpair q os hos o ho hop
    rcases e with ⟨qh, c⟩
    rcases List.pairwise_cons.mp hpair with ⟨hhead, htail⟩
    simp only [allocSlot] at h
    split at h
    · rename_i hc
      by_cases hqq : qh = q
      · subst hqq
        have hz : pbpLookup rest qh = 0 :=
          pbpLookup_zero_of_not_key qh rest (fun x hx => Ne.symm (hhead x hx))
        have hlk : pbpLookup ((qh, c) :: rest) qh = c := by simp [pbpLookup]
        have hrec := ih rem rem2 h htail qh os hos o ho hop
        rw [hrec, hz, hlk]
        rw [if_neg (by omega), if_neg (by omega)]
      · have hrec := ih rem rem2 h htail q os hos o ho hop
        rw [hrec]
        simp only [pbpLookup]
        rw [if_neg hqq]
    · rename_i hc
      rcases hosh : prodOrdersFor cfg orders qh with _ | osh
      · rw [hosh] at h
        exact absurd h (by simp)
      · rw [hosh] at h
        simp only [Option.some_bind] at h
        by_cases hqq : qh = q
        · subst hqq
          have hoseq : osh = os := by
            rw [hosh] at hos
            exact Option.some.inj hos
          subst hoseq
          have hz : pbpLookup rest qh = 0 :=
            pbpLookup_zero_of_not_key qh rest (fun x hx => Ne.symm (hhead x hx))
          have hlk : pbpLookup ((qh, c) :: rest) qh = c := by simp [pbpLookup]
          have hrec := ih _ rem2 h htail qh osh hosh o ho hop
          rw [hrec, hz, hlk]
          rw [if_neg (by omega), if_pos (by omega)]
        · have hagree : ∀ id ∈ os.map Order.id,
              (allocOrders day osh c rem).1 id = rem id := by
            intro id hid
            rcases List.mem_map.mp hid with ⟨b, hb, hbid⟩
            rcases mem_prodOrdersFor cfg orders q os hos b hb with ⟨hbo, hbp⟩
            subst hbid
            refine allocOrders_untouched day osh c rem b.id ?_
            refine prodOrdersFor_id_not_mem cfg orders hids b hbo qh ?_ osh hosh
            rw [hbp]
            exact hqq
          have hrec := ih _ rem2 h htail q os hos o ho hop
          rw [hrec]
          simp only [pbpLookup]
          rw [if_neg hqq]
          have hmemo : o.id ∈ os.map Order.id :=
            List.mem_map_of_mem _ (mem_prodOrdersFor_of cfg orders q os hos o ho hop)
          split
          · rcases allocOrders_agree day os (prodOrdersFor_pairwise cfg orders hids q os hos)
              (pbpLookup rest q) _ rem hagree with ⟨ha, _⟩
            exact ha o.id hmemo
          · exact hagree o.id hmemo

/-- One slot's product loop, compared between a run with more capacity of
product `p` (pcs1) and one with less (pcs2): the remaining demand of `p`
stays pointwise lower in the richer run, and the remaining demand of
every other product is identical. -/
theorem allocSlot_mono (cfg : Config) (orders : List Order)
    (hids : orders.Pairwise (fun a b => a.id ≠ b.id)) (day : Int) (p : Int)
    (prp : Product) (hp : cfg.product_by_id p = some prp)
    (pcs1 pcs2 : List (Int × Int))
    (h1k : pcs1.Pairwise (fun a b => a.1 ≠ b.1))
    (h2k : pcs2.Pairwise (fun a b => a.1 ≠ b.1))
    (hlkp : pbpLookup pcs2 p ≤ pbpLookup pcs1 p)
    (hlkq : ∀ q prq, cfg.product_by_id q = some prq → q ≠ p →
      pbpLookup pcs1 q = pbpLookup pcs2 q)
    (ra rb ra2 rb2 : Map)
    (ha : allocSlot day (prodOrdersFor cfg orders) pcs1 ra = some ra2)
    (hb : allocSlot day (prodOrdersFor cfg orders) pcs2 rb = some rb2)
    (hle : ∀ o ∈ orders, o.product = p → ra o.id ≤ rb o.id)
    (heq : ∀ o ∈ orders, o.product ≠ p → ra o.id = rb o.id) :
    (∀ o ∈ orders, o.product = p → ra2 o.id ≤ rb2 o.id) ∧
    (∀ o ∈ orders, o.product ≠ p → ra2 o.id = rb2 o.id) := by
  constructor
  · intro o ho hop
    have hosE : ∃ os, prodOrdersFor cfg orders p = some os :=
      ⟨sortOrders (orderKeyLE prp.unit_cost)
        (orders.filter (fun o2 => decide (o2.product = p))), by simp [prodOrdersFor, hp]⟩
    rcases hosE with ⟨os, hos⟩
    have hA := allocSlot_char cfg orders hids day pcs1 ra ra2 ha h1k p os hos o ho hop
    have hB := allocSlot_char cfg orders hids day pcs2 rb rb2 hb h2k p os hos o ho hop
    rw [hA, hB]
    have hosle : ∀ id ∈ os.map Order.id, ra id ≤ rb id := by
      intro id hid
      rcases List.mem_map.mp hid with ⟨b2, hb2, hbid⟩
      rcases mem_prodOrdersFor cfg orders p os hos b2 hb2 with ⟨hbo, hbp⟩
      subst hbid
      exact hle b2 hbo hbp
    have hmemo : o.id ∈ os.map Order.id :=
      List.mem_map_of_mem _ (mem_prodOrdersFor_of cfg orders p os hos o ho hop)
    by_cases h2pos : 0 < pbpLookup pcs2 p
    · rw [if_pos h2pos, if_pos (by omega)]
      exact (allocOrders_mono day os (prodOrdersFor_pairwise cfg orders hids p os hos)
        (pbpLookup pcs1 p) (pbpLookup pcs2 p) ra rb hosle hlkp (le_of_lt h2pos)).1 o.id hmemo
    · rw [if_neg h2pos]
      by_cases h1pos : 0 < pbpLookup pcs1 p
      · rw [if_pos h1pos]
        exact le_trans (allocOrders_rem_le day os _ ra o.id) (hle o ho hop)
      · rw [if_neg h1pos]
        exact hle o ho hop
  · intro o ho hop
    rcases hq : cfg.product_by_id o.product with _ | prq
    · have huA : ra2 o.id = ra o.id := by
        refine allocSlot_untouched day _ pcs1 ra ra2 o.id ha ?_
        intro e he os2 hos2
        rcases Option.map_eq_some'.mp hos2 with ⟨prv, hprv, _⟩
        have hne : e.1 ≠ o.product := by
          intro he2
          rw [he2, hq] at hprv
          exact absurd hprv (by simp)
        exact prodOrdersFor_id_not_mem cfg orders hids o ho e.1 hne os2 hos2
      have huB : rb2 o.id = rb o.id := by
        refine allocSlot_untouched day _ pcs2 rb rb2 o.id hb ?_
        intro e he os2 hos2
        rcases Option.map_eq_some'.mp hos2 with ⟨prv, hprv, _⟩
        have hne : e.1 ≠ o.product := by
          intro he2
          rw [he2, hq] at hprv
          exact absurd hprv (by simp)
        exact prodOrdersFor_id_not_mem cfg orders hids o ho e.1 hne os2 hos2
      rw [huA, huB]
      exact heq o ho hop
    · have hosE : ∃ os, prodOrdersFor cfg orders o.product = some os :=
        ⟨sortOrders (orderKeyLE prq.unit_cost)
          (orders.filter (fun o2 => decide (o2.product = o.product))),
         by simp [prodOrdersFor, hq]⟩
      rcases hosE with ⟨os, hos⟩
      have hA := allocSlot_char cfg orders hids day pcs1 ra ra2 ha h1k o.product os hos
        o ho rfl
      have hB := allocSlot_char cfg orders hids day pcs2 rb rb2 hb h2k o.product os hos
        o ho rfl
      rw [hA, hB, hlkq o.product prq hq hop]
      have hoseq : ∀ id ∈ os.map Order.id, ra id = rb id := by
        intro id hid
        rcases List.mem_map.mp hid with ⟨b2, hb2, hbid⟩
        rcases mem_prodOrdersFor cfg orders o.product os hos b2 hb2 with ⟨hbo, hbp⟩
        subst hbid
        refine heq b2 hbo ?_
        rw [hbp]
        exact hop
      have hmemo : o.id ∈ os.map Order.id :=
        List.mem_map_of_mem _ (mem_prodOrdersFor_of cfg orders o.product os hos o ho rfl)
      split
      · exact (allocOrders_agree day os
          (prodOrdersFor_pairwise cfg orders hids o.product os hos)
          (pbpLookup pcs2 o.product) ra rb hoseq).1 o.id hmemo
      · exact hoseq o.id hmemo

theorem countP_set_ne (p q : Int) (hq : q ≠ p) :
    ∀ (l : List (Option Int)) (i : Nat), l.get? i = some none →
      (l.set i (some p)).countP (fun c => decide (c = some q))
        = l.countP (fun c => decide (c = some q)) := by
  intro l
  induction l with
  | nil => intro i h; simp at h
  | cons a rest ih =>
    intro i h
    cases i with
    | zero =>
      have hay : a = none := by simpa using h
      subst hay
      simp [List.set, List.countP_cons, Ne.symm hq]
    | succ n =>
      have h2 : rest.get? n = some none := by simpa using h
      simp only [List.set, List.countP_cons]
      rw [ih n h2]
  
theorem countP_set_p (p : Int) :
    ∀ (l : List (Option Int)) (i : Nat), l.get? i = some none →
      (l.set i (some p)).countP (fun c => decide (c = some p))
        = l.countP (fun c => decide (c = some p)) + 1 := by
  intro l
  induction l with
  | nil => intro i h; simp at h
  | cons a rest ih =>
    intro i h
    cases i with
    | zero =>
      have hay : a = none := by simpa using h
      subst hay
      simp [List.set, List.countP_cons]
    | succ n =>
      have h2 : rest.get? n = some none := by simpa using h
      simp only [List.set, List.countP_cons]
      rw [ih n h2]
      omega

theorem forall2_set_rel (p : Int) :
    ∀ (l : List (List (Option Int))) (s : Nat) (lines2 : List (Option Int)) (i : Nat),
      l.get? s = some lines2 → lines2.get? i = some none →
      List.Forall₂ (fun l1 l2 => l1 = l2 ∨
        ∃ j, l2.get? j = some none ∧ l1 = l2.set j (some p))
        (l.set s (lines2.set i (some p))) l := by
  intro l
  induction l with
  | nil => intro s lines2 i h _; simp at h
  | cons a rest ih =>
    intro s lines2 i hs hl
    cases s with
    | zero =>
      have ha : a = lines2 := by simpa using hs
      subst ha
      simp only [List.set]
      refine List.Forall₂.cons (Or.inr ⟨i, hl, rfl⟩) ?_
      exact List.forall₂_same.mpr (fun x _ => Or.inl rfl)
    | succ n =>
      have hs2 : rest.get? n = some lines2 := by simpa using hs
      simp only [List.set]
      exact List.Forall₂.cons (Or.inl rfl) (ih n lines2 i hs2 hl)

/-- Whole-horizon comparison: a schedule that differs only by turning
idle line-slots into production of `p` keeps every product's remaining
demand related: lower for `p`, identical for the others. -/
theorem decodeSlots_mono (cfg : Config) (orders : List Order)
    (hids : orders.Pairwise (fun a b => a.id ≠ b.id))
    (hcap : ∀ q ∈ cfg.products, 0 ≤ q.slot_capacity)
    (p : Int) (prp : Product) (hp : cfg.product_by_id p = some prp) :
    ∀ (slots1 slots2 : List (List (Option Int))),
      List.Forall₂ (fun l1 l2 => l1 = l2 ∨
        ∃ i, l2.get? i = some none ∧ l1 = l2.set i (some p)) slots1 slots2 →
      ∀ (sIdx : Nat) (ra rb raF rbF : Map),
        decodeSlots cfg (prodOrdersFor cfg orders) slots1 sIdx ra = some raF →
        decodeSlots cfg (prodOrdersFor cfg orders) slots2 sIdx rb = some rbF →
        (∀ o ∈ orders, o.product = p → ra o.id ≤ rb o.id) →
        (∀ o ∈ orders, o.product ≠ p → ra o.id = rb o.id) →
        (∀ o ∈ orders, o.product = p → raF o.id ≤ rbF o.id) ∧
        (∀ o ∈ orders, o.product ≠ p → raF o.id = rbF o.id) := by
  intro slots1 slots2 hrel
  induction hrel with
  | nil =>
    intro sIdx ra rb raF rbF h1 h2 hle heq
    simp only [decodeSlots, Option.some.injEq] at h1 h2
    subst h1
    subst h2
    exact ⟨hle, heq⟩
  | @cons lines1 lines2 rest1 rest2 h12 hrelT ih =>
    intro sIdx ra rb raF rbF h1 h2 hle heq
    simp only [decodeSlots] at h1 h2
    rcases hpbp1 : producedByProduct cfg lines1 [] with _ | pbp1
    · rw [hpbp1] at h1
      exact absurd h1 (by simp)
    rcases hpbp2 : producedByProduct cfg lines2 [] with _ | pbp2
    · rw [hpbp2] at h2
      exact absurd h2 (by simp)
    rw [hpbp1] at h1
    rw [hpbp2] at h2
    simp only [Option.some_bind] at h1 h2
    rcases hs1 : allocSlot ((day_of_slot sIdx : Nat) : Int) (prodOrdersFor cfg orders)
        pbp1 ra with _ | ra2
    · rw [hs1] at h1
      exact absurd h1 (by simp)
    rcases hs2 : allocSlot ((day_of_slot sIdx : Nat) : Int) (prodOrdersFor cfg orders)
        pbp2 rb with _ | rb2
    · rw [hs2] at h2
      exact absurd h2 (by simp)
    rw [hs1] at h1
    rw [hs2] at h2
    simp only [Option.some_bind] at h1 h2
    have h1k := producedByProduct_pairwise cfg lines1 [] pbp1 hpbp1 List.Pairwise.nil
    have h2k := producedByProduct_pairwise cfg lines2 [] pbp2 hpbp2 List.Pairwise.nil
    have hcountq : ∀ q : Int, q ≠ p →
        lines1.countP (fun c => decide (c = some q))
          = lines2.countP (fun c => decide (c = some q)) := by
      intro q hqp
      rcases h12 with heq12 | ⟨i, hget, hset⟩
      · rw [heq12]
      · subst hset
        exact countP_set_ne p q hqp lines2 i hget
    have hlkq : ∀ q prq, cfg.product_by_id q = some prq → q ≠ p →
        pbpLookup pbp1 q = pbpLookup pbp2 q := by
      intro q prq hq hqp
      rw [producedByProduct_lookup cfg q prq hq lines1 [] pbp1 hpbp1,
          producedByProduct_lookup cfg q prq hq lines2 [] pbp2 hpbp2,
          hcountq q hqp]
    have hlkp : pbpLookup pbp2 p ≤ pbpLookup pbp1 p := by
      rw [producedByProduct_lookup cfg p prp hp lines1 [] pbp1 hpbp1,
          producedByProduct_lookup cfg p prp hp lines2 [] pbp2 hpbp2]
      simp only [pbpLookup, zero_add]
      rcases h12 with heq12 | ⟨i, hget, hset⟩
      · rw [heq12]
      · subst hset
        rw [countP_set_p p lines2 i hget]
        have hc : 0 ≤ prp.slot_capacity := hcap prp (product_by_id_mem cfg p prp hp)
        refine mul_le_mul_of_nonneg_right ?_ hc
        push_cast
        omega
    have hstep := allocSlot_mono cfg orders hids ((day_of_slot sIdx : Nat) : Int) p prp hp
      pbp1 pbp2 h1k h2k hlkp hlkq ra rb ra2 rb2 hs1 hs2 hle heq
    exact ih (sIdx + 1) ra2 rb2 raF rbF h1 h2 hstep.1 hstep.2

/-- C6: holding config and orders fixed, converting one idle line-slot of
a schedule to produce a product with unmet demand never decreases the
total units delivered for that product by `decode_assignments`, and
leaves the delivered units of every other product unchanged.
`sched1` is `sched2` with line `i` of slot `s` turned from idle to `p`. -/
theorem C6_added_capacity_monotone (sched1 sched2 : Schedule) (cfg : Config)
    (orders : List Order)
    (hids : orders.Pairwise (fun a b => a.id ≠ b.id))
    (hcap : ∀ q ∈ cfg.products, 0 ≤ q.slot_capacity)
    (s i : Nat) (lines2 : List (Option Int)) (p : Int) (pr : Product)
    (hs : sched2.get? s = some lines2) (hl : lines2.get? i = some none)
    (hsched1 : sched1 = sched2.set s (lines2.set i (some p)))
    (hp : cfg.product_by_id p = some pr)
    (d1 d2 : Map)
    (h1 : decode_assignments sched1 cfg orders = some d1)
    (h2 : decode_assignments sched2 cfg orders = some d2)
    (hunmet : ∃ o ∈ orders, o.product = p ∧ d2 o.id < o.qty) :
    ((orders.filter (fun o => decide (o.product = p))).map (fun o => d2 o.id)).sum
      ≤ ((orders.filter (fun o => decide (o.product = p))).map (fun o => d1 o.id)).sum ∧
    (∀ o ∈ orders, o.product ≠ p → d1 o.id = d2 o.id) := by
  subst hsched1
  rcases Option.map_eq_some'.mp h1 with ⟨remF1, hremF1, hd1⟩
  rcases Option.map_eq_some'.mp h2 with ⟨remF2, hremF2, hd2⟩
  subst hd1
  subst hd2
  have hrel := forall2_set_rel p sched2 s lines2 i hs hl
  have hmono := decodeSlots_mono cfg orders hids hcap p pr hp _ sched2 hrel 0
    (initRemaining orders) (initRemaining orders) remF1 remF2 hremF1 hremF2
    (fun o _ _ => le_refl _) (fun o _ _ => rfl)
  constructor
  · refine List.sum_le_sum ?_
    intro o ho
    rcases List.mem_filter.mp ho with ⟨ho1, ho2⟩
    rw [foldl_update_eq (fun o => o.qty - remF2 o.id) orders hids o ho1 (fun _ => 0),
        foldl_update_eq (fun o => o.qty - remF1 o.id) orders hids o ho1 (fun _ => 0)]
    have hle := hmono.1 o ho1 (of_decide_eq_true ho2)
    omega
  · intro o ho hop
    rw [foldl_update_eq (fun o => o.qty - remF1 o.id) orders hids o ho (fun _ => 0),
        foldl_update_eq (fun o => o.qty - remF2 o.id) orders hids o ho (fun _ => 0)]
    have heq2 := hmono.2 o ho hop
    omega

/-- Witness for C6: turning slot 0 of the all-idle 6-slot schedule into
production of product 1 raises delivered units from 0 to 40. -/
theorem C6_added_capacity_monotone_witness :
    (([orderC4].filter (fun o => decide (o.product = 1))).map (fun o => dC6zero o.id)).sum
      ≤ (([orderC4].filter (fun o => decide (o.product = 1))).map (fun o => dC6one o.id)).sum ∧
    (∀ o ∈ [orderC4], o.product ≠ 1 → dC6one o.id = dC6zero o.id) :=
  C6_added_capacity_monotone schedC4 schedIdle6 cfgC4 [orderC4]
    (by simp)
    (by
      intro q hq
      rcases List.mem_singleton.mp hq with rfl
      exact of_decide_eq_true (by with_unfolding_all rfl))
    0 0 [none] 1 { id := 1, rate_per_hour := 10, unit_cost := 30 }
    rfl rfl rfl rfl
    dC6one dC6zero
    (by with_unfolding_all rfl)
    (by with_unfolding_all rfl)
    ⟨orderC4, List.mem_singleton.mpr rfl, rfl, by decide⟩

/-! ## Sortedness and stability of the decoder's order sort -/

theorem orderKeyLE_total (cost : ℚ) (a b : Order) :
    orderKeyLE cost a b = true ∨ orderKeyLE cost b a = true := by
  simp only [orderKeyLE, decide_eq_true_eq]
  by_cases h : a.due_day < b.due_day
  · exact Or.inl (Or.inl h)
  · by_cases h2 : b.due_day < a.due_day
    · exact Or.inr (Or.inl h2)
    · have hd : a.due_day = b.due_day := le_antisymm (not_lt.mp h2) (not_lt.mp h)
      by_cases h3 : -(a.unit_price - cost) ≤ -(b.unit_price - cost)
      · exact Or.inl (Or.inr ⟨hd, h3⟩)
      · exact Or.inr (Or.inr ⟨hd.symm, le_of_lt (not_le.mp h3)⟩)

theorem orderKeyLE_trans (cost : ℚ) (a b c : Order)
    (hab : orderKeyLE cost a b = true) (hbc : orderKeyLE cost b c = true) :
    orderKeyLE cost a c = true := by
  simp only [orderKeyLE, decide_eq_true_eq] at hab hbc ⊢
  rcases hab with h1 | ⟨h1, h1b⟩
  · rcases hbc with h2 | ⟨h2, _⟩
    · exact Or.inl (h1.trans h2)
    · exact Or.inl (h2 ▸ h1)
  · rcases hbc with h2 | ⟨h2, h2b⟩
    · exact Or.inl (h1 ▸ h2)
    · exact Or.inr ⟨h1.trans h2, le_trans h1b h2b⟩

theorem insSorted_sorted (le : Order → Order → Bool)
    (htot : ∀ a b, le a b = true ∨ le b a = true)
    (htr : ∀ a b c, le a b = true → le b c = true → le a c = true)
    (x : Order) :
    ∀ l : List Order, l.Pairwise (fun a b => le a b = true) →
      (insSorted le x l).Pairwise (fun a b => le a b = true) := by
  intro l
  induction l with
  | nil =>
    intro _
    simp [insSorted]
  | cons y t ih =>
    intro hl
    rcases List.pairwise_cons.mp hl with ⟨hhead, htail⟩
    simp only [insSorted]
    by_cases hxy : le x y = true
    · rw [if_pos hxy]
      refine List.pairwise_cons.mpr ⟨?_, hl⟩
      intro b hb
      rcases List.mem_cons.mp hb with rfl | hmem
      · exact hxy
      · exact htr x y b hxy (hhead b hmem)
    · rw [if_neg hxy]
      have hyx : le y x = true := (htot x y).resolve_left hxy
      refine List.pairwise_cons.mpr ⟨?_, ih htail⟩
      intro b hb
      have hb2 := (insSorted_perm le x t).mem_iff.mp hb
      rcases List.mem_cons.mp hb2 with rfl | hmem
      · exact hyx
      · exact hhead b hmem

theorem sortOrders_sorted (le : Order → Order → Bool)
    (htot : ∀ a b, le a b = true ∨ le b a = true)
    (htr : ∀ a b c, le a b = true → le b c = true → le a c = true) :
    ∀ l : List Order, (sortOrders le l).Pairwise (fun a b => le a b = true) := by
  intro l
  induction l with
  | nil => simp [sortOrders]
  | cons x t ih =>
    simp only [sortOrders]
    exact insSorted_sorted le htot htr x (sortOrders le t) ih

theorem insSorted_filter_key (cost : ℚ) (k : Int × ℚ) (x : Order) :
    ∀ l : List Order,
      (insSorted (orderKeyLE cost) x l).filter (fun o => decide (orderKey cost o = k))
        = if orderKey cost x = k
          then x :: l.filter (fun o => decide (orderKey cost o = k))
          else l.filter (fun o => decide (orderKey cost o = k)) := by
  intro l
  induction l with
  | nil =>
    by_cases hx : orderKey cost x = k
    · simp [insSorted, List.filter, hx]
    · simp [insSorted, List.filter, hx]
  | cons y t ih =>
    simp only [insSorted]
    by_cases hxy : orderKeyLE cost x y = true
    · rw [if_pos hxy]
      by_cases hx : orderKey cost x = k
      · simp [List.filter_cons, hx]
      · simp [List.filter_cons, hx]
    · rw [if_neg hxy]
      have hkey : orderKey cost y ≠ orderKey cost x := by
        intro he
        apply hxy
        simp only [orderKey, Prod.mk.injEq] at he
        simp only [orderKeyLE, decide_eq_true_eq]
        exact Or.inr ⟨he.1.symm, le_of_eq he.2.symm⟩
      by_cases hx : orderKey cost x = k
      · rw [if_pos hx]
        have hyk : (decide (orderKey cost y = k)) = false := by
          simp only [decide_eq_false_iff_not]
          exact fun he => hkey (he.trans hx.symm)
        simp only [List.filter_cons, hyk, Bool.false_eq_true, if_false]
        rw [ih, if_pos hx]
      · rw [if_neg hx]
        simp only [List.filter_cons]
        rw [ih, if_neg hx]

theorem sortOrders_filter_key (cost : ℚ) (k : Int × ℚ) :
    ∀ l : List Order,
      (sortOrders (orderKeyLE cost) l).filter (fun o => decide (orderKey cost o = k))
        = l.filter (fun o => decide (orderKey cost o = k)) := by
  intro l
  induction l with
  | nil => rfl
  | cons x t ih =>
    simp only [sortOrders]
    rw [insSorted_filter_key]
    by_cases hx : orderKey cost x = k
    · rw [if_pos hx, ih]
      have hxd : (decide (orderKey cost x = k)) = true := by simp [hx]
      simp [List.filter_cons, hxd]
    · rw [if_neg hx, ih]
      have hxd : (decide (orderKey cost x = k)) = false := by simp [hx]
      simp [List.filter_cons, hxd]

/-! ## Frame properties of the heap-model decoder and evaluator -/

theorem decodeSlotsH_frame (cfg : Config) (prodOrds : Int → Option (List Order))
    (heap : RowHeap) :
    ∀ (addrs : List Nat) (sIdx : Nat) (rem rem2 : Map) (heap2 : RowHeap),
      decodeSlotsH cfg prodOrds heap addrs sIdx rem = some (rem2, heap2) →
      heap2 = heap := by
  intro addrs
  induction addrs with
  | nil =>
    intro sIdx rem rem2 heap2 h
    simp only [decodeSlotsH, Option.some.injEq, Prod.mk.injEq] at h
    exact h.2.symm
  | cons a rest ih =>
    intro sIdx rem rem2 heap2 h
    simp only [decodeSlotsH] at h
    rcases hg : heap.get? a with _ | lines
    · rw [hg] at h
      exact absurd h (by simp)
    rw [hg] at h
    simp only [Option.some_bind] at h
    rcases hpbp : producedByProduct cfg lines [] with _ | pbp
    · rw [hpbp] at h
      exact absurd h (by simp)
    rw [hpbp] at h
    simp only [Option.some_bind] at h
    rcases hsl : allocSlot ((day_of_slot sIdx : Nat) : Int) prodOrds pbp rem with _ | rem3
    · rw [hsl] at h
      exact absurd h (by simp)
    rw [hsl] at h
    simp only [Option.some_bind] at h
    exact ih _ _ _ _ h

theorem duePassSlotsH_frame (cfg : Config) (ostore : OrderStore) (oaddrs : List Nat)
    (heap : RowHeap) :
    ∀ (addrs : List Nat) (sIdx : Nat) (dbd rem : Map)
      (out : (Map × Map) × RowHeap × OrderStore),
      duePassSlotsH cfg ostore oaddrs heap addrs sIdx dbd rem = some out →
      out.2.1 = heap ∧ out.2.2 = ostore := by
  intro addrs
  induction addrs with
  | nil =>
    intro sIdx dbd rem out h
    simp only [duePassSlotsH, Option.some.injEq] at h
    subst h
    exact ⟨rfl, rfl⟩
  | cons a rest ih =>
    intro sIdx dbd rem out h
    simp only [duePassSlotsH] at h
    rcases hg : heap.get? a with _ | lines
    · rw [hg] at h
      exact absurd h (by simp)
    rw [hg] at h
    simp only [Option.some_bind] at h
    rcases hpbp : producedByProduct cfg lines [] with _ | pbp
    · rw [hpbp] at h
      exact absurd h (by simp)
    rw [hpbp] at h
    simp only [Option.some_bind] at h
    rcases hords : oaddrs.mapM (fun a2 => ostore.get? a2) with _ | orders
    · rw [hords] at h
      exact absurd h (by simp)
    rw [hords] at h
    simp only [Option.some_bind] at h
    rcases hdp : duePassSlot cfg orders ((day_of_slot sIdx : Nat) : Int) pbp dbd rem
        with _ | dr
    · rw [hdp] at h
      exact absurd h (by simp)
    rw [hdp] at h
    simp only [Option.some_bind] at h
    exact ih _ _ _ _ h

theorem decode_assignmentsH_frame (heap : RowHeap) (sched : List Nat) (cfg : Config)
    (ostore : OrderStore) (oaddrs : List Nat) (d : Map) (heap2 : RowHeap)
    (ostore2 : OrderStore)
    (h : decode_assignmentsH heap sched cfg ostore oaddrs = some (d, heap2, ostore2)) :
    heap2 = heap ∧ ostore2 = ostore := by
  simp only [decode_assignmentsH] at h
  rcases hords : oaddrs.mapM (fun a => ostore.get? a) with _ | ords
  · rw [hords] at h
    exact absurd h (by simp)
  rw [hords] at h
  simp only [Option.some_bind] at h
  rcases hds : decodeSlotsH cfg (prodOrdersFor cfg ords) heap sched 0 (initRemaining ords)
      with _ | rh
  · rw [hds] at h
    exact absurd h (by simp)
  rw [hds] at h
  simp only [Option.some_bind, Option.some.injEq, Prod.mk.injEq] at h
  rcases h with ⟨_, h2, h3⟩
  refine ⟨?_, h3.symm⟩
  rw [← h2]
  exact decodeSlotsH_frame cfg _ heap sched 0 _ rh.1 rh.2 (by rw [hds])

theorem evaluate_scheduleH_frame (heap : RowHeap) (sched : List Nat) (cfg : Config)
    (ostore : OrderStore) (oaddrs : List Nat) (r : EvaluationResult) (heap2 : RowHeap)
    (ostore2 : OrderStore)
    (h : evaluate_scheduleH heap sched cfg ostore oaddrs = some (r, heap2, ostore2)) :
    heap2 = heap ∧ ostore2 = ostore := by
  simp only [evaluate_scheduleH] at h
  rcases hd : decode_assignmentsH heap sched cfg ostore oaddrs with _ | dres
  · rw [hd] at h
    exact absurd h (by simp)
  rw [hd] at h
  simp only [Option.some_bind] at h
  rcases decode_assignmentsH_frame heap sched cfg ostore oaddrs dres.1 dres.2.1 dres.2.2
      (by rw [hd]) with ⟨hh, ho⟩
  rcases hords : oaddrs.mapM (fun a => dres.2.2.get? a) with _ | orders
  · rw [hords] at h
    exact absurd h (by simp)
  rw [hords] at h
  simp only [Option.some_bind] at h
  rcases hdp : duePassSlotsH cfg dres.2.2 oaddrs dres.2.1 sched 0 (fun _ => 0)
      (initRemaining orders) with _ | ddr
  · rw [hdp] at h
    exact absurd h (by simp)
  rw [hdp] at h
  simp only [Option.some_bind] at h
  rcases duePassSlotsH_frame cfg dres.2.2 oaddrs dres.2.1 sched 0 _ _ ddr hdp with ⟨h3, h4⟩
  rcases hrows : sched.mapM (fun a => ddr.2.1.get? a) with _ | rows
  · rw [hrows] at h
    exact absurd h (by simp)
  rw [hrows] at h
  simp only [Option.some_bind] at h
  rcases hpca : prodCostActive cfg rows 0 0 0 with _ | pca
  · rw [hpca] at h
    exact absurd h (by simp)
  rw [hpca] at h
  simp only [Option.some_bind] at h
  rcases hw : wageCost cfg rows 0 0 with _ | wage
  · rw [hw] at h
    exact absurd h (by simp)
  rw [hw] at h
  simp only [Option.map_some', Option.some.injEq, Prod.mk.injEq] at h
  rcases h with ⟨_, h5, h6⟩
  constructor
  · rw [← h5, h3, hh]
  · rw [← h6, h4, ho]

theorem compute_soft_fitnessH_frame (heap : RowHeap) (sched : List Nat) (cfg : Config)
    (ostore : OrderStore) (oaddrs : List Nat) (a b c : ℚ) (f : ℚ) (heap2 : RowHeap)
    (ostore2 : OrderStore)
    (h : compute_soft_fitnessH heap sched cfg ostore oaddrs a b c
      = some (f, heap2, ostore2)) :
    heap2 = heap ∧ ostore2 = ostore := by
  simp only [compute_soft_fitnessH] at h
  rcases he : evaluate_scheduleH heap sched cfg ostore oaddrs with _ | res
  · rw [he] at h
    exact absurd h (by simp)
  rw [he] at h
  simp only [Option.some_bind] at h
  rcases evaluate_scheduleH_frame heap sched cfg ostore oaddrs res.1 res.2.1 res.2.2
      (by rw [he]) with ⟨hh, ho⟩
  rcases hords : oaddrs.mapM (fun x => res.2.2.get? x) with _ | orders
  · rw [hords] at h
    exact absurd h (by simp)
  rw [hords] at h
  simp only [Option.some_bind] at h
  rcases hrows : sched.mapM (fun x => res.2.1.get? x) with _ | rows
  · rw [hrows] at h
    exact absurd h (by simp)
  rw [hrows] at h
  simp only [Option.some_bind] at h
  rcases hsdp : softDeadlinePressure cfg (earliest_due_per_product orders) rows 0 0
      with _ | sdp
  · rw [hsdp] at h
    exact absurd h (by simp)
  rw [hsdp] at h
  simp only [Option.some_bind] at h
  rcases hdp : duePassSlotsH cfg res.2.2 oaddrs res.2.1 sched 0 (fun _ => 0)
      (initRemaining orders) with _ | ddr
  · rw [hdp] at h
    exact absurd h (by simp)
  rw [hdp] at h
  simp only [Option.some_bind] at h
  rcases duePassSlotsH_frame cfg res.2.2 oaddrs res.2.1 sched 0 _ _ ddr hdp with ⟨h3, h4⟩
  rcases hhw : (if 0 < c then highWageSoft cfg rows 0 0 else some 0) with _ | hw
  · rw [hhw] at h
    exact absurd h (by simp)
  rw [hhw] at h
  simp only [Option.map_some', Option.some.injEq, Prod.mk.injEq] at h
  rcases h with ⟨_, h5, h6⟩
  constructor
  · rw [← h5, h3, hh]
  · rw [← h6, h4, ho]

/-- C10: `decode_assignments`, `evaluate_schedule` and
`compute_soft_fitness` never mutate their arguments: whenever they
return, the heap of schedule line-arrays and the store of `Order`
records (including the runtime field `delivered`) are exactly as before
the call; the decoder works on `dataclasses.replace` copies and the
evaluator only reads.  (The `Config` is an ordinary immutable value of
the model: no statement of these functions writes to it.) -/
theorem C10_no_mutation (heap : RowHeap) (sched : List Nat) (cfg : Config)
    (ostore : OrderStore) (oaddrs : List Nat) (d : Map) (r : EvaluationResult)
    (a b c f : ℚ) (heapD heapE heapF : RowHeap) (ostoreD ostoreE ostoreF : OrderStore)
    (hd : decode_assignmentsH heap sched cfg ostore oaddrs = some (d, heapD, ostoreD))
    (he : evaluate_scheduleH heap sched cfg ostore oaddrs = some (r, heapE, ostoreE))
    (hf : compute_soft_fitnessH heap sched cfg ostore oaddrs a b c
      = some (f, heapF, ostoreF)) :
    (heapD = heap ∧ ostoreD = ostore) ∧ (heapE = heap ∧ ostoreE = ostore) ∧
    (heapF = heap ∧ ostoreF = ostore) :=
  ⟨decode_assignmentsH_frame heap sched cfg ostore oaddrs d heapD ostoreD hd,
   evaluate_scheduleH_frame heap sched cfg ostore oaddrs r heapE ostoreE he,
   compute_soft_fitnessH_frame heap sched cfg ostore oaddrs a b c f heapF ostoreF hf⟩

/-- Witness for C10 on the concrete scenario heap. -/
theorem C10_no_mutation_witness :
    (heapW = heapW ∧ ostoreW = ostoreW) ∧ (heapW = heapW ∧ ostoreW = ostoreW) ∧
    (heapW = heapW ∧ ostoreW = ostoreW) :=
  C10_no_mutation heapW schedAddrW cfgC4 ostoreW oaddrW dC6one resW
    (3 / 2) (4 / 5) 0 520 heapW heapW heapW ostoreW ostoreW ostoreW
    (by with_unfolding_all rfl) (by with_unfolding_all rfl) (by with_unfolding_all rfl)

/-- C9: the delivery allocator is a deterministic pure function of its
`(schedule, config, orders)` triple: a second run on the state left by a
first run returns the identical delivered-units mapping (its type shows
it consumes no random source), and the order in which competing orders
are served is the stable sort by (due day ascending, profit density
descending): the sorted list is sorted for the key comparison, is a
permutation of the input, and preserves the input order within every
key class. -/
theorem C9_decoder_determinism (heap : RowHeap) (sched : List Nat) (cfg : Config)
    (ostore : OrderStore) (oaddrs : List Nat) (d1 : Map) (heap1 : RowHeap)
    (ostore1 : OrderStore) (cost : ℚ) (orders : List Order)
    (h : decode_assignmentsH heap sched cfg ostore oaddrs = some (d1, heap1, ostore1)) :
    decode_assignmentsH heap1 sched cfg ostore1 oaddrs = some (d1, heap1, ostore1) ∧
    (sortOrders (orderKeyLE cost) orders).Pairwise
      (fun a b => orderKeyLE cost a b = true) ∧
    List.Perm (sortOrders (orderKeyLE cost) orders) orders ∧
    ∀ k : Int × ℚ,
      (sortOrders (orderKeyLE cost) orders).filter (fun o => decide (orderKey cost o = k))
        = orders.filter (fun o => decide (orderKey cost o = k)) := by
  rcases decode_assignmentsH_frame heap sched cfg ostore oaddrs d1 heap1 ostore1 h
    with ⟨hh, ho⟩
  subst hh
  subst ho
  exact ⟨h,
    sortOrders_sorted (orderKeyLE cost) (orderKeyLE_total cost) (orderKeyLE_trans cost)
      orders,
    sortOrders_perm _ _,
    fun k => sortOrders_filter_key cost k orders⟩

/-- Witness for C9 on the concrete scenario. -/
theorem C9_decoder_determinism_witness :
    decode_assignmentsH heapW schedAddrW cfgC4 ostoreW oaddrW
      = some (dC6one, heapW, ostoreW) ∧
    (sortOrders (orderKeyLE 30) [orderC4]).Pairwise
      (fun a b => orderKeyLE 30 a b = true) ∧
    List.Perm (sortOrders (orderKeyLE 30) [orderC4]) [orderC4] ∧
    (sortOrders (orderKeyLE 30) [orderC4]).filter
        (fun o => decide (orderKey 30 o = (1, -20)))
      = [orderC4].filter (fun o => decide (orderKey 30 o = (1, -20))) := by
  have h := C9_decoder_determinism heapW schedAddrW cfgC4 ostoreW oaddrW dC6one heapW
    ostoreW 30 [orderC4] (by with_unfolding_all rfl)
  exact ⟨h.1, h.2.1, h.2.2.1, h.2.2.2 (1, -20)⟩

/-! ## VNS improvement invariant -/

theorem vnsAttempts_inv (cfg : Config) (orders : List Order) (idx : Nat) :
    ∀ (n : Nat) (best : Schedule) (bp : ℚ) (g : Rng) (k : Nat)
      (out : (Schedule × ℚ × Bool) × Nat),
      vnsAttempts cfg orders idx n best bp g k = some out →
      (∃ ev, evaluate_schedule best cfg orders = some ev ∧ ev.profit = bp) →
      (∃ ev, evaluate_schedule out.1.1 cfg orders = some ev ∧
        ev.profit = out.1.2.1) ∧ bp ≤ out.1.2.1 := by
  intro n
  induction n with
  | zero =>
    intro best bp g k out h hinv
    simp only [vnsAttempts, Option.some.injEq] at h
    subst h
    exact ⟨hinv, le_refl _⟩
  | succ n ih =>
    intro best bp g k out h hinv
    simp only [vnsAttempts] at h
    rcases hc : vnsNeighborApply idx best cfg orders g k with _ | ck
    · rw [hc] at h; simp only [Option.none_bind] at h; exact absurd h (by simp)
    rw [hc, Option.some_bind] at h
    rcases he : evaluate_schedule ck.1 cfg orders with _ | ev
    · rw [he] at h; simp only [Option.none_bind] at h; exact absurd h (by simp)
    rw [he, Option.some_bind] at h
    by_cases hlt : bp < ev.profit
    · rw [if_pos hlt] at h
      simp only [Option.some.injEq] at h
      subst h
      exact ⟨⟨ev, he, rfl⟩, le_of_lt hlt⟩
    · rw [if_neg hlt] at h
      exact ih best bp g ck.2 out h hinv

theorem vnsNeighborhoods_inv (cfg : Config) (orders : List Order) (attempts : Nat) :
    ∀ (idxs : List Nat) (best : Schedule) (bp : ℚ) (g : Rng) (k : Nat)
      (out : (Schedule × ℚ × Bool) × Nat),
      vnsNeighborhoods cfg orders attempts idxs best bp g k = some out →
      (∃ ev, evaluate_schedule best cfg orders = some ev ∧ ev.profit = bp) →
      (∃ ev, evaluate_schedule out.1.1 cfg orders = some ev ∧
        ev.profit = out.1.2.1) ∧ bp ≤ out.1.2.1 := by
  intro idxs
  induction idxs with
  | nil =>
    intro best bp g k out h hinv
    simp only [vnsNeighborhoods, Option.some.injEq] at h
    subst h
    exact ⟨hinv, le_refl _⟩
  | cons idx rest ih =>
    intro best bp g k out h hinv
    simp only [vnsNeighborhoods] at h
    rcases ha : vnsAttempts cfg orders idx attempts best bp g k with _ | rk
    · rw [ha] at h; simp only [Option.none_bind] at h; exact absurd h (by simp)
    rw [ha, Option.some_bind] at h
    have hstep := vnsAttempts_inv cfg orders idx attempts best bp g k rk ha hinv
    by_cases hf : rk.1.2.2
    · rw [if_pos hf] at h
      simp only [Option.some.injEq] at h
      subst h
      exact hstep
    · rw [if_neg hf] at h
      rcases ih rk.1.1 rk.1.2.1 g rk.2 out h hstep.1 with ⟨hout, hle⟩
      exact ⟨hout, le_trans hstep.2 hle⟩

theorem vnsRounds_inv (cfg : Config) (orders : List Order) (attempts : Nat) :
    ∀ (r : Nat) (best : Schedule) (bp : ℚ) (g : Rng) (k : Nat)
      (out : (Schedule × ℚ) × Nat),
      vnsRounds cfg orders attempts r best bp g k = some out →
      (∃ ev, evaluate_schedule best cfg orders = some ev ∧ ev.profit = bp) →
      (∃ ev, evaluate_schedule out.1.1 cfg orders = some ev ∧
        ev.profit = out.1.2) ∧ bp ≤ out.1.2 := by
  intro r
  induction r with
  | zero =>
    intro best bp g k out h hinv
    simp only [vnsRounds, Option.some.injEq] at h
    subst h
    exact ⟨hinv, le_refl _⟩
  | succ r ih =>
    intro best bp g k out h hinv
    simp only [vnsRounds] at h
    rcases hn : vnsNeighborhoods cfg orders attempts [0, 1, 2] best bp g k with _ | rk
    · rw [hn] at h; simp only [Option.none_bind] at h; exact absurd h (by simp)
    rw [hn, Option.some_bind] at h
    have hstep := vnsNeighborhoods_inv cfg orders attempts [0, 1, 2] best bp g k rk hn hinv
    by_cases hf : rk.1.2.2
    · rw [if_pos hf] at h
      rcases ih rk.1.1 rk.1.2.1 g rk.2 out h hstep.1 with ⟨hout, hle⟩
      exact ⟨hout, le_trans hstep.2 hle⟩
    · rw [if_neg hf] at h
      simp only [Option.some.injEq] at h
      subst h
      exact hstep

/-- C3: whenever `vns_improve` returns, the returned profit equals the
evaluated profit of the returned schedule, and it is at least the
evaluated profit of the input schedule — for every schedule, config,
order list and random draw oracle. -/
theorem C3_vns_profit_invariant (schedule : Schedule) (cfg : Config)
    (orders : List Order) (rounds attempts : Nat) (g : Rng) (k k2 : Nat)
    (ev0 : EvaluationResult) (s2 : Schedule) (p2 : ℚ)
    (h0 : evaluate_schedule schedule cfg orders = some ev0)
    (h : vns_improve schedule cfg orders rounds attempts g k = some ((s2, p2), k2)) :
    (∃ ev2, evaluate_schedule s2 cfg orders = some ev2 ∧ ev2.profit = p2) ∧
      ev0.profit ≤ p2 := by
  unfold vns_improve at h
  rw [h0, Option.some_bind] at h
  exact vnsRounds_inv cfg orders attempts rounds schedule ev0.profit g k
    ((s2, p2), k2) h ⟨ev0, h0, rfl⟩

/-- Witness for C3: a concrete run of `vns_improve` (one round, one
attempt per neighbourhood, all-zero oracle, one idle slot, no orders)
returns the input schedule with profit 0, which is at least the input's
profit. -/
theorem C3_vns_profit_invariant_witness :
    vns_improve [[none]] cfgC4 [] 1 1 rng0W 0 = some (([[none]], 0), 6) ∧
      resEmptyW.profit ≤ (0 : ℚ) := by
  have h0 : evaluate_schedule ([[none]] : Schedule) cfgC4 [] = some resEmptyW := by
    with_unfolding_all rfl
  have h : vns_improve [[none]] cfgC4 [] 1 1 rng0W 0 = some (([[none]], 0), 6) := by
    with_unfolding_all rfl
  exact ⟨h, (C3_vns_profit_invariant [[none]] cfgC4 [] 1 1 rng0W 0 6
    resEmptyW [[none]] 0 h0 h).2⟩

/-! ## SA initial temperature -/

/-- C7 counterexample: a concrete instance where the single sampled
neighbour move worsens profit by 1/2 (so worsening samples exist and
their average magnitude is 1/2), yet `_auto_initial_temp` returns the
floor 1 — refuting the claim that the floor is used only when no
worsening samples are found. -/
theorem C7_counterexample :
    sampleDeltas cfg7 [orderC4] sched7 700 1 rng0W 0 = some ([-(1 / 2)], 3) ∧
      auto_initial_temp sched7 cfg7 [orderC4] 1 rng0W 0 = some (1, 3) ∧
      (1 : ℚ) ≠ 1 / 2 := by
  refine ⟨by with_unfolding_all rfl, by with_unfolding_all rfl, by norm_num⟩

/-- C7 (amended): the auto-estimated initial temperature is
`max 1 (average magnitude of the worsening sampled deltas)` — the floor
of 1.0 applies unconditionally, not only when no worsening samples are
found; with no worsening samples the result is `max 1 1 = 1`. -/
theorem C7_auto_temp_amended (current : Schedule) (cfg : Config)
    (orders : List Order) (samples : Nat) (g : Rng) (k k2 : Nat) (t : ℚ)
    (deltas : List ℚ) (base : EvaluationResult)
    (hb : evaluate_schedule current cfg orders = some base)
    (hs : sampleDeltas cfg orders current base.profit samples g k
      = some (deltas, k2))
    (ht : auto_initial_temp current cfg orders samples g k = some (t, k2)) :
    1 ≤ t ∧
      t = max 1 (if deltas.filter (fun d => decide (d < 0)) = [] then 1
        else ((deltas.filter (fun d => decide (d < 0))).map (fun d => |d|)).sum /
          ((deltas.filter (fun d => decide (d < 0))).length : ℚ)) := by
  unfold auto_initial_temp at ht
  rw [hb, Option.some_bind, hs] at ht
  simp only [Option.map_some', Option.some.injEq] at ht
  rcases hsplit : deltas.filter (fun d => decide (d < 0)) with _ | ⟨e0, es⟩
  · rw [hsplit] at ht
    simp only [List.map_nil, List.isEmpty_nil, if_true, Prod.mk.injEq] at ht
    rw [if_pos rfl, ← ht.1]
    exact ⟨le_refl 1, (max_self 1).symm⟩
  · rw [hsplit] at ht
    simp only [List.map_cons, List.isEmpty_cons, Bool.false_eq_true, if_false,
      Prod.mk.injEq] at ht
    rw [if_neg (by simp), ← ht.1]
    refine ⟨le_max_left 1 _, ?_⟩
    simp only [List.map_cons, List.length_cons, List.length_map]

/-- Witness for the amended C7 theorem, instantiated at the
counterexample instance: the returned temperature 1 satisfies the floor
and equals `max 1 (1/2)`. -/
theorem C7_auto_temp_amended_witness :
    (1 : ℚ) ≤ 1 ∧
      (1 : ℚ) = max 1
        (if ([-(1 / 2)] : List ℚ).filter (fun d => decide (d < 0)) = [] then 1
         else ((([-(1 / 2)] : List ℚ).filter (fun d => decide (d < 0))).map
             (fun d => |d|)).sum /
           ((([-(1 / 2)] : List ℚ).filter (fun d => decide (d < 0))).length : ℚ)) := by
  have hb : evaluate_schedule sched7 cfg7 [orderC4] = some res7 := by
    with_unfolding_all rfl
  have hs : sampleDeltas cfg7 [orderC4] sched7 res7.profit 1 rng0W 0
      = some ([-(1 / 2)], 3) := by with_unfolding_all rfl
  have ht : auto_initial_temp sched7 cfg7 [orderC4] 1 rng0W 0 = some (1, 3) := by
    with_unfolding_all rfl
  exact C7_auto_temp_amended sched7 cfg7 [orderC4] 1 rng0W 0 3 1 [-(1 / 2)]
    res7 hb hs ht

/-! ## GA elitism, aliasing and crossover totality -/

/-- C1: a complete concrete `run_ga` run (1 line, 1 product, 1 order,
population 2, one generation) in which elitism is broken: the returned
best individual is reported with evaluation profit 700 (its stale
generation-0 value, preserved by the `id`-keyed fitness cache), but
evaluating the very schedule returned, in the final heap, yields profit
−200 — the elite was mutated in place through a crossover child that
shares its row objects, so generation 1's true best (−200) is strictly
worse than generation 0's best (700). -/
theorem C1_elitism_broken :
    ((run_gaH cfgC4 [orderC4] [0] 1 1 2 1 (1 / 100) false 0 0 0 [] rngGA 0 0).bind
        (fun out =>
          (evaluate_scheduleH out.2.2.heap out.1.rows cfgC4 out.2.2.ostore [0]).map
            (fun r => (out.2.1.profit, r.1.profit))))
      = some (700, -200) ∧ (-200 : ℚ) < 700 := by
  exact ⟨by with_unfolding_all rfl, by norm_num⟩

/-- C2: `crossover` children alias their parents' inner line-arrays: the
second child's first row is the very row object (address 0) of the first
parent, and an in-place `mutate` of that child rewrites the parent's row
from `[some 1]` to `[none]` — the parent is not left unchanged. -/
theorem C2_crossover_child_aliases_parent :
    crossoverH hsA hsB rng0W 0 2
        = some (({ oid := 2, rows := [6, 7, 2, 3, 4, 5] },
            { oid := 3, rows := [0, 1, 8, 9, 10, 11] }), 2, 4) ∧
      hsA.rows.get? 0 = some 0 ∧
      heapGA2.get? 0 = some [some 1] ∧
      (mutateH { oid := 3, rows := [0, 1, 8, 9, 10, 11] } cfgC4 (1 / 100) heapGA2
          rng0W 0).map (fun h => h.1.get? 0)
        = some (some [none]) := by
  refine ⟨by with_unfolding_all rfl, by with_unfolding_all rfl,
    by with_unfolding_all rfl, by with_unfolding_all rfl⟩

/-- C8: on a single-slot horizon, `crossover` is not total: both day
count and slot count collapse and `random.randint(1, 0)` raises
`ValueError` (`none`), so the GA crashes — while `evaluate_schedule`
itself does handle the degenerate empty schedule / empty order list,
returning 0 for all three rates whose denominators are 0. -/
theorem C8_crossover_not_total :
    crossoverH { oid := 0, rows := [0] } { oid := 1, rows := [1] } rng0W 0 2
        = none ∧
      (evaluate_schedule [] cfgC4 []).map
          (fun r => (r.on_time_rate, r.penalty_rate, r.utilization_rate))
        = some (0, 0, 0) := by
  refine ⟨by with_unfolding_all rfl, by with_unfolding_all rfl⟩

end Compute
